import Mathlib

/-!
Verification of core algorithms of the `mkpath` pathfinding toolkit.

The definitions below are shallow embeddings of the Rust sources:
* `mkpath-cpd/src/lib.rs` (CPD row compression, Eytzinger reorder, lookup, save)
* `mkpath-jps/src/lib.rs` (canonical JPS successors)
* `mkpath-grid-gb/src/tiebreak.rs` (tie-break table)
* `mkpath-grid/src/bitgrid.rs` (bit grid row-slice reads)
* `mkpath-grid/src/bucket_queue.rs` (bucket queue open list)
* `mkpath-tdh/src/differential.rs` (differential heuristic pivot selection)

Machine integers are modelled as `Nat` with explicit truncation where the Rust
code can overflow; `f64` quantities that are only added, divided and compared
are modelled as `ℚ`.
-/

set_option maxRecDepth 16384
set_option maxHeartbeats 4000000

namespace Mkpath

/-! ### CPD entries (`CpdEntry` in mkpath-cpd/src/lib.rs)

A `CpdEntry` wraps a `u32`; the low 26 bits hold the run's start id and the
high 6 bits hold the first-move edge index. -/

/-- `struct CpdEntry(u32)`: the wrapped `u32` value. -/
structure CpdEntry where
  val : Nat
  deriving DecidableEq, Repr, Inhabited

/-- `CpdEntry::start`: `(self.0 & (1 << 26) - 1) as usize`. -/
def CpdEntry.start (e : CpdEntry) : Nat := e.val &&& (1 <<< 26 - 1)

/-- `CpdEntry::edge`: `(self.0 >> 26) as usize`. -/
def CpdEntry.edge (e : CpdEntry) : Nat := e.val >>> 26

/-- Trailing-zero count by repeated halving, with enough fuel for a 64-bit
value. -/
def tzAux : Nat → Nat → Nat
  | 0, _ => 0
  | fuel + 1, x => if x % 2 = 1 then 0 else tzAux fuel (x / 2) + 1

/-- `u64::trailing_zeros`, which returns 64 on input 0. -/
def u64_trailing_zeros (x : Nat) : Nat := if x = 0 then 64 else tzAux 64 x

/-- The loop of `CpdRow::compress_runs`, producing the run list in sorted
(pre-Eytzinger) order.  `current_id` is a `u32` and the moves are `u64`;
`id as u32` truncates.  The source pushes
`CpdEntry(current_id | current_moves.trailing_zeros() << 26)`. -/
def compressLoop : List (Nat × Nat) → Nat → Nat → List CpdEntry
  | [], _, _ => []
  | (id, moves) :: rest, current_id, current_moves =>
    if current_moves &&& moves = 0 then
      ⟨current_id ||| (u64_trailing_zeros current_moves <<< 26) % 2 ^ 32⟩ ::
        compressLoop rest (id % 2 ^ 32) moves
    else
      compressLoop rest current_id (current_moves &&& moves)

/-- The sorted run list produced by `CpdRow::compress_runs` before the
Eytzinger reordering: the input sequence is chained with the `(0, 0)`
terminator and folded with `current_id = 0`, `current_moves = !0u64`. -/
def compressRunsList (first_move_bits : List (Nat × Nat)) : List CpdEntry :=
  compressLoop (first_move_bits ++ [(0, 0)]) 0 (2 ^ 64 - 1)

/-- The recursion of `reorder_eytzinger`, made structural on a fuel argument;
behaviour matches the source whenever `n - k ≤ fuel` (each recursive call
strictly decreases `n - k`). -/
def reorderAux : Nat → List CpdEntry → Nat → Nat → (Nat → CpdEntry) →
    List CpdEntry × (Nat → CpdEntry)
  | 0, items, _, _, into => (items, into)
  | fuel + 1, items, n, k, into =>
    if k < n then
      match reorderAux fuel items n (2 * k + 1) into with
      | ([], into1) => ([], into1)
      | (x :: rest, into1) =>
        reorderAux fuel rest n (2 * k + 2) (fun j => if j = k then x else into1 j)
    else
      (items, into)

/-- `reorder_eytzinger` (mkpath-cpd/src/lib.rs): in-order traversal of the
implicit binary tree on `[0, n)` writing consecutive iterator items.  The
mutable slice is modelled as a function `Nat → CpdEntry`; the iterator as a
list, returned alongside.  The source `unwrap`s the iterator, which never
fails on the actual call; an exhausted iterator leaves the slice unchanged
here. -/
def reorder_eytzinger (items : List CpdEntry) (n k : Nat) (into : Nat → CpdEntry) :
    List CpdEntry × (Nat → CpdEntry) :=
  reorderAux (n - k) items n k into

/-- A CPD row: the runs in Eytzinger order. -/
structure CpdRow where
  runs : List CpdEntry
  deriving DecidableEq, Repr

/-- Builds the Eytzinger-ordered array of length `n` from a sorted item list,
as `CpdRow::compress_runs` does with `reorder_eytzinger(&mut sorted.into_iter(),
&mut runs, 0)` (the destination initially holds the clone source). -/
def eytzingerOf (sorted : List CpdEntry) : CpdRow :=
  let n := sorted.length
  let f := (reorder_eytzinger sorted n 0 (fun j => sorted.getD j ⟨0⟩)).2
  ⟨(List.range n).map f⟩

/-- `CpdRow::compress_runs`: compress, then reorder into Eytzinger order. -/
def CpdRow.compress_runs (first_move_bits : List (Nat × Nat)) : CpdRow :=
  eytzingerOf (compressRunsList first_move_bits)

/-- `CpdRow::compress`: compression of a plain first-move sequence
(`enumerate` supplies the indices). -/
def CpdRow.compress (first_move_bits : List Nat) : CpdRow :=
  CpdRow.compress_runs first_move_bits.enum

/-- `CpdRow::len`. -/
def CpdRow.len (row : CpdRow) : Nat := row.runs.length

/-- The loop of `CpdRow::lookup`, structural on a fuel argument; behaviour
matches the source whenever `runs.length - i ≤ fuel` (each iteration strictly
decreases `runs.length - i`).  The descent records the edge of every visited
run whose start is `≤ id`. -/
def lookupAux (runs : List CpdEntry) (id : Nat) : Nat → Nat → Nat → Nat
  | 0, _, result => result
  | fuel + 1, i, result =>
    if h : i < runs.length then
      if id < (runs.get ⟨i, h⟩).start then
        lookupAux runs id fuel (2 * i + 1) result
      else
        lookupAux runs id fuel (2 * i + 2) (runs.get ⟨i, h⟩).edge
    else
      result

/-- `CpdRow::lookup`. -/
def CpdRow.lookup (row : CpdRow) (id : Nat) : Nat :=
  lookupAux row.runs id row.runs.length 0 0

/-- Little-endian byte list of a `u32` value. -/
def u32LeBytes (x : Nat) : List Nat :=
  [x % 256, x / 2 ^ 8 % 256, x / 2 ^ 16 % 256, x / 2 ^ 24 % 256]

/-- `CpdRow::save`: `u32` length then the entries, all little-endian. -/
def CpdRow.save (row : CpdRow) : List Nat :=
  u32LeBytes (row.runs.length % 2 ^ 32) ++
    (row.runs.map (fun r => u32LeBytes r.val)).flatten

/-! ### Directions and canonical successors (mkpath-grid, mkpath-jps)

`Direction` has discriminants North=0, West=1, South=2, East=3, NorthWest=4,
SouthWest=5, SouthEast=6, NorthEast=7; an `EnumSet<Direction>` is the `u8`
bitmask with bit `i` for the direction with discriminant `i`, modelled as a
`Nat`. -/

/-- The `Direction` enum of mkpath-grid. -/
inductive Direction where
  | north | west | south | east | northWest | southWest | southEast | northEast
  deriving DecidableEq, Repr, Fintype

/-- The bitmask of one direction inside an `EnumSet<Direction>`. -/
def Direction.mask : Direction → Nat
  | .north => 1
  | .west => 2
  | .south => 4
  | .east => 8
  | .northWest => 16
  | .southWest => 32
  | .southEast => 64
  | .northEast => 128

/-- The eight directions in discriminant (= `EnumSet` iteration) order. -/
def dirList : List Direction :=
  [.north, .west, .south, .east, .northWest, .southWest, .southEast, .northEast]

/-- `canonical_successors` (mkpath-jps/src/lib.rs): for a traversable
neighborhood bitmask `nb` and an optional incoming direction, the set of
directions a canonical JPS search must consider.  Each `successors |= d`
under a chain of conditions becomes a guarded mask joined by `|||`. -/
def canonical_successors (nb : Nat) (going : Option Direction) : Nat :=
  match going with
  | some .north =>
    (if nb &&& 1 ≠ 0 then 1 else 0) |||
    (if nb &&& (32 ||| 2) = 2 then
      2 ||| (if nb &&& (1 ||| 16) = 1 ||| 16 then 16 else 0) else 0) |||
    (if nb &&& (64 ||| 8) = 8 then
      8 ||| (if nb &&& (1 ||| 128) = 1 ||| 128 then 128 else 0) else 0)
  | some .west =>
    (if nb &&& 2 ≠ 0 then 2 else 0) |||
    (if nb &&& (128 ||| 1) = 1 then
      1 ||| (if nb &&& (2 ||| 16) = 2 ||| 16 then 16 else 0) else 0) |||
    (if nb &&& (64 ||| 4) = 4 then
      4 ||| (if nb &&& (2 ||| 32) = 2 ||| 32 then 32 else 0) else 0)
  | some .south =>
    (if nb &&& 4 ≠ 0 then 4 else 0) |||
    (if nb &&& (16 ||| 2) = 2 then
      2 ||| (if nb &&& (4 ||| 32) = 4 ||| 32 then 32 else 0) else 0) |||
    (if nb &&& (128 ||| 8) = 8 then
      8 ||| (if nb &&& (4 ||| 64) = 4 ||| 64 then 64 else 0) else 0)
  | some .east =>
    (if nb &&& 8 ≠ 0 then 8 else 0) |||
    (if nb &&& (16 ||| 1) = 1 then
      1 ||| (if nb &&& (8 ||| 128) = 8 ||| 128 then 128 else 0) else 0) |||
    (if nb &&& (32 ||| 4) = 4 then
      4 ||| (if nb &&& (8 ||| 64) = 8 ||| 64 then 64 else 0) else 0)
  | some .northWest =>
    (if nb &&& 1 ≠ 0 then 1 else 0) |||
    (if nb &&& 2 ≠ 0 then 2 else 0) |||
    (if nb &&& (1 ||| 2 ||| 16) = 1 ||| 2 ||| 16 then 16 else 0)
  | some .southWest =>
    (if nb &&& 4 ≠ 0 then 4 else 0) |||
    (if nb &&& 2 ≠ 0 then 2 else 0) |||
    (if nb &&& (4 ||| 2 ||| 32) = 4 ||| 2 ||| 32 then 32 else 0)
  | some .southEast =>
    (if nb &&& 4 ≠ 0 then 4 else 0) |||
    (if nb &&& 8 ≠ 0 then 8 else 0) |||
    (if nb &&& (4 ||| 8 ||| 64) = 4 ||| 8 ||| 64 then 64 else 0)
  | some .northEast =>
    (if nb &&& 1 ≠ 0 then 1 else 0) |||
    (if nb &&& 8 ≠ 0 then 8 else 0) |||
    (if nb &&& (1 ||| 8 ||| 128) = 1 ||| 8 ||| 128 then 128 else 0)
  | none =>
    (if nb &&& 1 ≠ 0 then 1 else 0) |||
    (if nb &&& 2 ≠ 0 then 2 else 0) |||
    (if nb &&& 4 ≠ 0 then 4 else 0) |||
    (if nb &&& 8 ≠ 0 then 8 else 0) |||
    (if nb &&& (1 ||| 2 ||| 16) = 1 ||| 2 ||| 16 then 16 else 0) |||
    (if nb &&& (4 ||| 2 ||| 32) = 4 ||| 2 ||| 32 then 32 else 0) |||
    (if nb &&& (4 ||| 8 ||| 64) = 4 ||| 8 ||| 64 then 64 else 0) |||
    (if nb &&& (1 ||| 8 ||| 128) = 1 ||| 8 ||| 128 then 128 else 0)

/-- The 5-direction backwards "cone" of cases 1-4 of `is_irrelevant_jp`. -/
def irrelevantCone : Direction → Nat
  | .north => 32 ||| 4 ||| 64
  | .west => 128 ||| 8 ||| 64
  | .south => 16 ||| 1 ||| 128
  | .east => 16 ||| 2 ||| 32
  | .northWest => 32 ||| 4 ||| 64 ||| 8 ||| 128
  | .southWest => 64 ||| 8 ||| 128 ||| 1 ||| 16
  | .southEast => 128 ||| 1 ||| 16 ||| 2 ||| 32
  | .northEast => 16 ||| 2 ||| 32 ||| 4 ||| 64

/-- Case 5 (orthogonal-to-orthogonal turn) of `is_irrelevant_jp`. -/
def irrelevantCase5 (jp : Direction) (fm nb : Nat) : Bool :=
  match jp with
  | .north => (fm &&& 2 ≠ 0 ∧ nb &&& 32 ≠ 0) ∨ (fm &&& 8 ≠ 0 ∧ nb &&& 64 ≠ 0)
  | .west => (fm &&& 4 ≠ 0 ∧ nb &&& 64 ≠ 0) ∨ (fm &&& 1 ≠ 0 ∧ nb &&& 128 ≠ 0)
  | .south => (fm &&& 2 ≠ 0 ∧ nb &&& 16 ≠ 0) ∨ (fm &&& 8 ≠ 0 ∧ nb &&& 128 ≠ 0)
  | .east => (fm &&& 4 ≠ 0 ∧ nb &&& 32 ≠ 0) ∨ (fm &&& 1 ≠ 0 ∧ nb &&& 16 ≠ 0)
  | _ => false

/-- `is_irrelevant_jp` (mkpath-grid-gb/src/tiebreak.rs). -/
def is_irrelevant_jp (jp : Direction) (fm nb : Nat) : Bool :=
  let canonical := canonical_successors nb (some jp)
  if canonical &&& fm = 0 then true
  else if fm &&& irrelevantCone jp ≠ 0 then true
  else irrelevantCase5 jp fm nb

/-- The body of the per-`fm` loop of `compute_tiebreak_table`: start from
`fm`, and if `fm` is a subset of the valid moves, intersect with the
canonical successor set of every relevant jump point of `jps` (in `EnumSet`
iteration order). -/
def tiebreakEntry (nb jps fm : Nat) : Nat :=
  let valid_moves := canonical_successors nb none
  if fm &&& valid_moves = fm then
    (dirList.filter (fun d => jps &&& d.mask ≠ 0)).foldl
      (fun r jp => if is_irrelevant_jp jp fm nb then r
        else r &&& canonical_successors nb (some jp)) fm
  else fm

/-- `compute_tiebreak_table` (mkpath-grid-gb/src/tiebreak.rs) as the list of
its 256 entries; entry 0 is the all-ones wildcard. -/
def compute_tiebreak_table (nb jps : Nat) : List Nat :=
  (List.range 256).map (fun fm => if fm = 0 then 255 else tiebreakEntry nb jps fm)

/-- Pair-level view of the compression loop: the `(start_id, first_move_index)`
pair of each emitted run, before packing into a `u32`. -/
def compressPairsLoop : List (Nat × Nat) → Nat → Nat → List (Nat × Nat)
  | [], _, _ => []
  | (id, moves) :: rest, current_id, current_moves =>
    if current_moves &&& moves = 0 then
      (current_id, u64_trailing_zeros current_moves) ::
        compressPairsLoop rest (id % 2 ^ 32) moves
    else
      compressPairsLoop rest current_id (current_moves &&& moves)

/-- Packing of a `(start_id, first_move_index)` pair into a `u32` entry, as
`CpdEntry(current_id | current_moves.trailing_zeros() << 26)` does. -/
def packEntry (p : Nat × Nat) : CpdEntry := ⟨p.1 ||| (p.2 <<< 26) % 2 ^ 32⟩

/-- `j` lies in the subtree rooted at `k` of the infinite binary tree with
children `2k+1` and `2k+2` (the implicit tree of `reorder_eytzinger` and
`CpdRow::lookup`). -/
inductive Desc : Nat → Nat → Prop where
  | refl (k : Nat) : Desc k k
  | left {k j : Nat} : Desc (2 * k + 1) j → Desc k j
  | right {k j : Nat} : Desc (2 * k + 2) j → Desc k j

/-- In-order traversal of the indices of the implicit binary tree on `[0, n)`
rooted at `k`: the order in which `reorder_eytzinger` fills the slots. -/
def inorderIdx (n k : Nat) : List Nat :=
  if _h : k < n then
    inorderIdx n (2 * k + 1) ++ k :: inorderIdx n (2 * k + 2)
  else []
termination_by n - k
decreasing_by
  · omega
  · omega

/-- Predecessor search as a left fold: the edge of the last run with start
`≤ id`, defaulting to `r`. -/
def lookupFold (id : Nat) (rs : List CpdEntry) (r : Nat) : Nat :=
  rs.foldl (fun acc e => if e.start ≤ id then e.edge else acc) r

/-- Binary search over the sorted run sequence, following the spec's words:
the `first_move_index` of the run with the largest `start_id ≤ target_id`
(0 when no run qualifies).  For a strictly sorted sequence, the run with the
largest qualifying start id is the last run whose start is `≤ id`. -/
def specSortedLookup (rs : List CpdEntry) (id : Nat) : Nat :=
  ((rs.filter (fun e => e.start ≤ id)).getLast?).elim 0 CpdEntry.edge

/-! ### Bit grid (mkpath-grid/src/bitgrid.rs)

The backing byte array is modelled as a total function from byte index to
byte value; the construction invariant (each value `< 256`, padding bits 0)
is carried by hypotheses. -/

/-- `BitGrid`: width, height, padded row stride in bytes, byte array. -/
structure BitGrid where
  width : Int
  height : Int
  padded_width_bytes : Nat
  bits : Nat → Nat

/-- `BitGrid::new` (its assertions require non-negative dimensions):
`padded_width_bytes = width / 8 + 1` and an all-zero byte array. -/
def BitGrid.new (width height : Int) : BitGrid :=
  { width := width, height := height,
    padded_width_bytes := width.toNat / 8 + 1,
    bits := fun _ => 0 }

/-- `BitGrid::index`: byte `(x+1)/8 + (y+1)*padded_width_bytes` plus the
8-byte guard offset, and bit `(x+1) % 8`. -/
def BitGrid.index (g : BitGrid) (x y : Int) : Nat × Nat :=
  ((x + 1).toNat / 8 + (y + 1).toNat * g.padded_width_bytes + 8, (x + 1).toNat % 8)

/-- `BitGrid::get_unchecked`: test the addressed bit. -/
def BitGrid.get_unchecked (g : BitGrid) (x y : Int) : Bool :=
  g.bits (g.index x y).1 &&& (1 <<< (g.index x y).2) != 0

/-- `BitGrid::set_unchecked`: clear then or the addressed bit inside its
byte (`!(1 << bit)` on `u8` is `255 ^^^ (1 <<< bit)`). -/
def BitGrid.set_unchecked (g : BitGrid) (x y : Int) (traversable : Bool) : BitGrid :=
  { g with bits := fun i =>
      if i = (g.index x y).1 then
        (g.bits i &&& (255 ^^^ (1 <<< (g.index x y).2))) |||
          ((if traversable then 1 else 0) <<< (g.index x y).2)
      else g.bits i }

/-- Little-endian load of `c` consecutive bytes starting at `byte`. -/
def leBytes : Nat → (Nat → Nat) → Nat → Nat
  | 0, _, _ => 0
  | c + 1, f, byte => f byte + 2 ^ 8 * leBytes c f (byte + 1)

/-- `BitGrid::get_row_right`: 8-byte little-endian load at the cell's byte,
shifted right by the sub-byte bit position. -/
def BitGrid.get_row_right (g : BitGrid) (x y : Int) : Nat :=
  leBytes 8 g.bits (g.index x y).1 >>> (g.index x y).2

/-- A sequence of (bounds-checked, interior) `BitGrid::set` writes. -/
def applySets (g : BitGrid) : List (Int × Int × Bool) → BitGrid
  | [] => g
  | (x, y, t) :: rest => applySets (g.set_unchecked x y t) rest

/-- `(x, y)` is a padding cell: within the padded range but not interior. -/
def BitGrid.isPadding (g : BitGrid) (x y : Int) : Prop :=
  (-1 ≤ x ∧ x ≤ g.width ∧ -1 ≤ y ∧ y ≤ g.height) ∧
    (x = -1 ∨ x = g.width ∨ y = -1 ∨ y = g.height)

/-! ### First-move searcher (`FirstMoveSearcher::search`, mkpath-cpd/src/lib.rs)

Nodes are identified by `Nat`; the node fields `g` (an `f64` defaulting to
infinity, modelled as `WithTop ℚ`) and `first_move` (a `u64` bitset
defaulting to 0) become maps.  The open list is abstracted to the list of
nodes currently relaxed into it, with `next()` returning an arbitrary
member; the expander is abstracted to an arbitrary edge list
`(successor, cost, edge_id)` per expansion.  The `found` callbacks are
recorded in a log. -/

/-- Search state of `FirstMoveSearcher::search`. -/
structure FMState where
  g : Nat → WithTop ℚ
  fm : Nat → Nat
  openList : List Nat
  log : List (Nat × Nat)

/-- Processing of one start edge: `g := cost`, `first_move := 1 << edge_id`,
relax into the open list. -/
def fmStartEdge (s : FMState) (e : Nat × ℚ × Nat) : FMState :=
  { s with
    g := fun v => if v = e.1 then (e.2.1 : WithTop ℚ) else s.g v,
    fm := fun v => if v = e.1 then 1 <<< e.2.2 else s.fm v,
    openList := s.openList ++ [e.1] }

/-- The state after `start.set(g, 0.0)` and the special start expansion. -/
def fmInit (start : Nat) (edges : List (Nat × ℚ × Nat)) : FMState :=
  edges.foldl fmStartEdge
    { g := fun v => if v = start then 0 else ⊤
      fm := fun _ => 0
      openList := []
      log := [] }

/-- One edge relaxation of the main loop: strict improvement overwrites `g`
and `first_move` and relaxes; an exact tie unions the popped node's
first-move bits into the successor's. -/
def fmRelaxEdge (node_g : WithTop ℚ) (node_fm : Nat) (s : FMState)
    (e : Nat × ℚ × Nat) : FMState :=
  let new_g := (e.2.1 : WithTop ℚ) + node_g
  if new_g < s.g e.1 then
    { s with
      g := fun v => if v = e.1 then new_g else s.g v,
      fm := fun v => if v = e.1 then node_fm else s.fm v,
      openList := s.openList ++ [e.1] }
  else if new_g = s.g e.1 then
    { s with fm := fun v => if v = e.1 then s.fm v ||| node_fm else s.fm v }
  else s

/-- Reachable states of `FirstMoveSearcher::search` from `start`, under the
expander/open-list contracts (non-negative costs; edge ids below 63 at the
asserted start expansion; `next()` returns some relaxed node). -/
inductive FMReach (start : Nat) : FMState → Prop where
  | init (edges : List (Nat × ℚ × Nat))
      (hids : ∀ e ∈ edges, e.2.2 < 63)
      (hcosts : ∀ e ∈ edges, 0 ≤ e.2.1) :
      FMReach start (fmInit start edges)
  | step {s : FMState} (hs : FMReach start s)
      (l1 l2 : List Nat) (node : Nat) (hsplit : s.openList = l1 ++ node :: l2)
      (edges : List (Nat × ℚ × Nat)) (hcosts : ∀ e ∈ edges, 0 ≤ e.2.1) :
      FMReach start (edges.foldl (fmRelaxEdge (s.g node) (s.fm node))
        { s with openList := l1 ++ l2, log := s.log ++ [(node, s.fm node)] })

/-! ### Bucket queue (mkpath-grid/src/bucket_queue.rs)

Nodes are identified by `Nat`; the `g` field (`f64`) becomes `ℚ`, the
`bucket_pos` field a map to `(u32, u32)` pairs with the
`(u32::MAX, u32::MAX)` default, and the `VecDeque<Vec<NodeRef>>` a list of
lists (`Vec::push` appends, `Vec::pop` removes the last element).  Panicking
accesses (index out of bounds) make an operation return `none`. -/

/-- `Vec::pop`: removes and returns the last element. -/
def vecPop (l : List Nat) : Option (Nat × List Nat) :=
  match l.reverse with
  | [] => none
  | x :: rest => some (x, rest.reverse)

/-- `(q : f64) as u32`: truncation toward zero, saturating at the ends
(negative values clamp to 0 via `Int.toNat`). -/
def castU32 (q : ℚ) : Nat := min q.floor.toNat (2 ^ 32 - 1)

/-- State of a `BucketQueue`: front bucket number, the deque of buckets, and
the node fields `g` and `bucket_pos`. -/
structure BQState where
  bucket_number : Nat
  queue : List (List Nat)
  g : Nat → ℚ
  bucket_pos : Nat → Nat × Nat

/-- The freshly created queue (`BucketQueueFactory::new_queue`), with the
node fields at their builder defaults (`bucket_pos = (u32::MAX, u32::MAX)`). -/
def bq_init : BQState :=
  { bucket_number := 0, queue := [],
    g := fun _ => 0, bucket_pos := fun _ => (2 ^ 32 - 1, 2 ^ 32 - 1) }

/-- The removal phase of `BucketQueue::relaxed` (the `if bucket != u32::MAX`
block): swap-remove the node from its recorded bucket.  `bucket -
bucket_number` is a `u32` subtraction and wraps; an out-of-bounds index is a
panic, modelled as `none`. -/
def bq_removeOld (s : BQState) (node : Nat) : Option BQState :=
  let bucket := (s.bucket_pos node).1
  let index := (s.bucket_pos node).2
  if bucket ≠ 2 ^ 32 - 1 then
    let idx := if s.bucket_number ≤ bucket then bucket - s.bucket_number
      else bucket + 2 ^ 32 - s.bucket_number
    match s.queue[idx]? with
    | none => none
    | some old_bucket =>
      match vecPop old_bucket with
      | none => some s
      | some (swapped_in, popped) =>
        if swapped_in = node then
          some { s with queue := s.queue.set idx popped }
        else if index < popped.length then
          some { s with
            queue := s.queue.set idx (popped.set index swapped_in),
            bucket_pos := fun v => if v = swapped_in then (bucket, index)
              else s.bucket_pos v }
        else none
  else some s

/-- The insertion phase of `BucketQueue::relaxed`: resize the deque if
needed, push the node onto its new bucket, and record its position.  The
recorded slot index is `bucket.len() as u32`, i.e. the bucket length
truncated modulo `2 ^ 32`. -/
def bq_insert (s : BQState) (node : Nat) (new_bucket : Nat) : Option BQState :=
  let new_index := if s.bucket_number ≤ new_bucket
    then new_bucket - s.bucket_number
    else new_bucket + 2 ^ 32 - s.bucket_number
  let q1 := if s.queue.length ≤ new_index
    then s.queue ++ List.replicate (new_index + 1 - s.queue.length) []
    else s.queue
  match q1[new_index]? with
  | none => none
  | some vec =>
    some { s with
      queue := q1.set new_index (vec ++ [node]),
      bucket_pos := fun v => if v = node then (new_bucket, vec.length % 2 ^ 32)
        else s.bucket_pos v }

/-- `BucketQueue::relaxed(node)` (mkpath-grid/src/bucket_queue.rs), reading
the node's current `g`: early-return when the recorded bucket already
matches, otherwise remove from the old bucket and insert into the new. -/
def bq_relaxed (width : ℚ) (s : BQState) (node : Nat) : Option BQState :=
  let bucket := (s.bucket_pos node).1
  let new_bucket := castU32 (s.g node / width)
  if bucket = new_bucket then some s
  else
    match bq_removeOld s node with
    | none => none
    | some s1 => bq_insert s1 node new_bucket

/-- The caller's `node.set(g, gval)` followed by `relaxed(node)`. -/
def bq_relax_op (width : ℚ) (s : BQState) (node : Nat) (gval : ℚ) :
    Option BQState :=
  bq_relaxed width { s with g := fun v => if v = node then gval else s.g v } node

/-- Whether the back of the deque is a non-empty bucket
(`queue.back().is_some_and(|vec| !vec.is_empty())`). -/
def backNonempty (q : List (List Nat)) : Bool :=
  match q.getLast? with
  | some v => !v.isEmpty
  | none => false

/-- Termination measure for the `next()` loop: each iteration either pops a
bucket (queue shrinks) or rotates an empty front to the back at most once
(the recycled empty vector stops further rotation). -/
def bqMeasure (s : BQState) : Nat :=
  2 * s.queue.length + (if backNonempty s.queue then 1 else 0)

/-- The loop of `BucketQueue::next()`, with explicit fuel
(`bqMeasure` strictly decreases, so `bqMeasure + 1` fuel always suffices):
pop from the front bucket, advancing `bucket_number` past empty buckets and
recycling the popped-off empty front vector when the back is non-empty. -/
def bqNextAux : Nat → BQState → Option Nat × BQState
  | 0, s => (none, s)
  | fuel + 1, s =>
    match s.queue with
    | [] => (none, s)
    | front :: rest =>
      match vecPop front with
      | some (node, front1) => (some node, { s with queue := front1 :: rest })
      | none =>
        bqNextAux fuel { s with
          queue := if backNonempty rest then rest ++ [front] else rest,
          bucket_number := s.bucket_number + 1 }

/-- `BucketQueue::next()`. -/
def bq_next (s : BQState) : Option Nat × BQState := bqNextAux (bqMeasure s + 1) s

/-- Trace operations against a `BucketQueue`. -/
inductive BQOp where
  | relax (node : Nat) (gval : ℚ)
  | next

/-- Runs a trace, recording for every successful pop the popped node's
`floor(g / bucket_width)` evaluated at the moment it is popped. -/
def bq_run (width : ℚ) : List BQOp → BQState → Option (BQState × List Nat)
  | [], s => some (s, [])
  | BQOp.relax n gv :: rest, s =>
    match bq_relax_op width s n gv with
    | none => none
    | some s1 => bq_run width rest s1
  | BQOp.next :: rest, s =>
    match bq_run width rest (bq_next s).2 with
    | none => none
    | some (s2, log) =>
      match (bq_next s).1 with
      | none => some (s2, log)
      | some v => some (s2, ((s.g v / width).floor).toNat :: log)

/-- The caller obligations of the claim, checked at each `relaxed` call
against the state at that moment: non-negative `g` and a bucket id
`floor(g / bucket_width)` that is not below the current front bucket
number.  `extra` is an additional per-relax condition (`fun _ => True` for
the claim as stated; the bound keeping the bucket id away from the `u32`
sentinel for the amended claim). -/
def bq_oblig (width : ℚ) (extra : ℚ → Prop) : List BQOp → BQState → Prop
  | [], _ => True
  | BQOp.relax n gv :: rest, s =>
    0 ≤ gv ∧ s.bucket_number ≤ ((gv / width).floor).toNat ∧ extra gv ∧
      (match bq_relax_op width s n gv with
       | none => True
       | some s1 => bq_oblig width extra rest s1)
  | BQOp.next :: rest, s => bq_oblig width extra rest (bq_next s).2

/-- Per-slot invariant of a well-formed bucket queue: every node sitting at
position `j` of bucket `i` (counted from the front) is drawn from the node
universe `S`, has an accurate `bucket_pos`, the bucket id is below the
`u32::MAX` sentinel, and — for nodes satisfying `ex` — its current
`floor(g / width)` equals the bucket id. -/
def BQSlotInv (width : ℚ) (ex : Nat → Prop) (S : Finset Nat) (s : BQState) :
    Prop :=
  ∀ i j v b, s.queue[i]? = some b → b[j]? = some v →
    v ∈ S ∧
    s.bucket_pos v = (s.bucket_number + i, j) ∧
    (ex v → ((s.g v / width).floor).toNat = s.bucket_number + i) ∧
    s.bucket_number + i < 2 ^ 32 - 1

/-- The node does not occur anywhere in the deque. -/
def notInQueue (s : BQState) (node : Nat) : Prop :=
  ∀ i j : Nat, ∀ b : List Nat,
    s.queue[i]? = some b → b[j]? = some node → False

/-- Invariant of a well-formed bucket queue: accurate positions over a node
universe `S` of fewer than `2 ^ 32` nodes (so bucket lengths stay below
`2 ^ 32` and the `u32` cast of `bucket.len()` does not truncate), and the
deque does not reach around the `u32` range. -/
def BQInv (width : ℚ) (S : Finset Nat) (s : BQState) : Prop :=
  BQSlotInv width (fun _ => True) S s ∧
    s.bucket_number + s.queue.length ≤ 2 ^ 32 ∧
    S.card < 2 ^ 32

/-- The nodes named by the `relax` operations of a trace. -/
def relaxedNodes (ops : List BQOp) : List Nat :=
  ops.filterMap fun op => match op with
    | BQOp.relax n _ => some n
    | BQOp.next => none

def wS1 : BQState :=
  { bucket_number := 0, queue := [[], [0]],
    g := fun v => if v = 0 then 1 else bq_init.g v,
    bucket_pos := fun v => if v = 0 then (1, 0) else bq_init.bucket_pos v }

def wS2 : BQState := { wS1 with bucket_number := 1, queue := [[], []] }

def bqCex2 : BQState :=
  { bucket_number := 0,
    queue := List.replicate 4294967295 [] ++ [[0]],
    g := fun v => if v = 0 then 4294967295 else wS1.g v,
    bucket_pos := fun v => if v = 0 then (4294967295, 0) else wS1.bucket_pos v }

def bqCex2a : BQState :=
  { bucket_number := 0, queue := [[], []],
    g := fun v => if v = 0 then 4294967295 else wS1.g v,
    bucket_pos := wS1.bucket_pos }

def bqCex3 : BQState :=
  { bucket_number := 0,
    queue := [] :: [0] :: (List.replicate 4294967293 [] ++ [[0]]),
    g := fun v => if v = 0 then 1 else bqCex2.g v,
    bucket_pos := fun v => if v = 0 then (1, 0) else bqCex2.bucket_pos v }

def bqCex4 : BQState :=
  { bucket_number := 0,
    queue := [] :: [0] :: [1] :: (List.replicate 4294967292 [] ++ [[0]]),
    g := fun v => if v = 1 then 2 else bqCex3.g v,
    bucket_pos := fun v => if v = 1 then (2, 0) else bqCex3.bucket_pos v }

def bqCex5 : BQState :=
  { bqCex4 with
      bucket_number := 1,
      queue := [] :: (([1] :: (List.replicate 4294967292 [] ++ [[0]])) ++ [[]]) }

def bqCex6 : BQState :=
  { bqCex4 with
      bucket_number := 2,
      queue := [] :: ((List.replicate 4294967292 [] ++ [[0]]) ++ [[]]) }

def bqCex7 : BQState :=
  { bqCex4 with bucket_number := 4294967295, queue := [[], []] }

def bqCexOps : List BQOp :=
  [BQOp.relax 0 1, BQOp.relax 0 4294967295, BQOp.relax 0 1,
   BQOp.relax 1 2, BQOp.next, BQOp.next, BQOp.next]

def bqCex2b : BQState :=
  { bqCex2 with g := fun v => if v = 0 then (1 : ℚ) else bqCex2.g v }

def bqCex3b : BQState :=
  { bqCex3 with g := fun v => if v = 1 then (2 : ℚ) else bqCex3.g v }

/-- Exhaustive check that with all eight directions as jump points (the most
constraining case), every non-empty first-move subset of the valid moves has
a non-empty tie-break entry. -/
def c4Bool : Bool :=
  (List.range 256).all fun nb =>
    (List.range 256).all fun fm =>
      fm == 0 || !(fm &&& canonical_successors nb none == fm) ||
        tiebreakEntry nb 255 fm != 0


/-! ### Differential heuristic (mkpath-tdh/src/differential.rs)

`DifferentialHeuristic::calculate` picks, for every connected component and
every `i < N`, the pivot `mapper.to_state(rng.gen_range(id_range))`.  The
PRNG is abstracted as a stream of draws `draws : Nat → Nat`, consumed one
per `(component, i)` pair in loop order; `gen_range` over a non-empty
half-open range is `start + draw % len`. -/

structure IdRange where
  start : Nat
  len : Nat

/-- `rng.gen_range(id_range)` with the raw draw abstracted. -/
def genRange (r : IdRange) (draw : Nat) : Nat := r.start + draw % r.len

/-- The ids of an `IdRange`. -/
def rangeIds (r : IdRange) : List Nat :=
  (List.range r.len).map (r.start + ·)

/-- The pivots of one component: `to_state(rng.gen_range(id_range))` for
each `i in 0..N`. -/
def calcPivotsComp (toState : Nat → Nat) (r : IdRange) (N : Nat)
    (draws : Nat → Nat) (base : Nat) : List Nat :=
  (List.range N).map fun i => toState (genRange r (draws (base + i)))

def calcPivotsAux (toState : Nat → Nat) (N : Nat) (draws : Nat → Nat) :
    List IdRange → Nat → List (List Nat)
  | [], _ => []
  | r :: rest, base =>
    calcPivotsComp toState r N draws base ::
      calcPivotsAux toState N draws rest (base + N)

/-- The pivot-selection portion of `DifferentialHeuristic::calculate`:
for every component (id range) in order, `N` pivots drawn from the rng
stream. -/
def calculate_pivots (toState : Nat → Nat) (comps : List IdRange) (N : Nat)
    (draws : Nat → Nat) : List (List Nat) :=
  calcPivotsAux toState N draws comps 0

/-- Weighted walks in a state space presented by adjacency lists
(spec-side notion of distance for the farthest-point-sampling property). -/
inductive DWalk (adj : Nat → List (Nat × ℚ)) : Nat → Nat → ℚ → Prop where
  | refl (s : Nat) : DWalk adj s s 0
  | step (s t u : Nat) (c c' : ℚ) : (t, c) ∈ adj s → DWalk adj t u c' →
      DWalk adj s u (c + c')

/-- `d` is the minimum over walk costs from `s` to the set `T`
(spec-side). -/
def minDistIs (adj : Nat → List (Nat × ℚ)) (s : Nat) (T : List Nat)
    (d : ℚ) : Prop :=
  (∃ t ∈ T, DWalk adj s t d) ∧ (∀ t ∈ T, ∀ c, DWalk adj s t c → d ≤ c)

/-- Modelled from the spec: farthest-point sampling — every pivot `i ≥ 1`
maximises, over the component's states, the minimum distance to the
already-chosen pivots. -/
def FPSProperty (adj : Nat → List (Nat × ℚ)) (range : List Nat)
    (pivots : List Nat) : Prop :=
  ∀ i : Nat, ∀ hi : i < pivots.length, 0 < i →
    ∀ y ∈ range, ∀ dy dp : ℚ,
      minDistIs adj y (pivots.take i) dy →
      minDistIs adj (pivots.get ⟨i, hi⟩) (pivots.take i) dp →
      dy ≤ dp

/-- The path graph 0 — 1 — 2 with unit costs. -/
def adj3 : Nat → List (Nat × ℚ) := fun s =>
  if s = 0 then [(1, 1)]
  else if s = 1 then [(0, 1), (2, 1)]
  else if s = 2 then [(1, 1)]
  else []

/-- All edge costs of the adjacency structure are non-negative. -/
def NonnegCosts (adj : Nat → List (Nat × ℚ)) : Prop :=
  ∀ s : Nat, ∀ p ∈ adj s, 0 ≤ p.2

/-- `d` is the minimum walk cost from `src` to `v` (spec-side notion of
"the distance"). -/
def IsDist (adj : Nat → List (Nat × ℚ)) (src v : Nat) (d : ℚ) : Prop :=
  DWalk adj src v d ∧ ∀ c, DWalk adj src v c → d ≤ c

/-- State of one per-pivot search of `DifferentialHeuristic::calculate`
(differential.rs:40-64): `g` is the `g` node field (`none` models the
`f64::INFINITY` default), `opn` the contents of the priority queue, and
`data` the column `data[·][i]` being filled by this iteration (`none`
models the `f64::INFINITY` initial value). -/
structure DijkState where
  g : Nat → Option ℚ
  opn : List Nat
  data : Nat → Option ℚ

/-- One edge relaxation from a popped node with g-value `gn`
(differential.rs:55-62): `new_g = node_g + edge.cost()`; when
`new_g < successor.get(g)` (with the `f64::INFINITY` default greater than
every finite value) the successor's `g` is lowered and the successor is
handed to `queue.relaxed` (inserted if absent). -/
def djRelaxEdge (gn : ℚ) (s : DijkState) (e : Nat × ℚ) : DijkState :=
  match s.g e.1 with
  | none =>
    { s with
      g := fun v => if v = e.1 then some (gn + e.2) else s.g v,
      opn := if e.1 ∈ s.opn then s.opn else e.1 :: s.opn }
  | some gt =>
    if gn + e.2 < gt then
      { s with
        g := fun v => if v = e.1 then some (gn + e.2) else s.g v,
        opn := if e.1 ∈ s.opn then s.opn else e.1 :: s.opn }
    else s

/-- The state at the start of a per-pivot search (differential.rs:40-46):
fresh pool (every `g` infinite), then `start.set(g, 0.0)` and
`queue.relaxed(start)`. -/
def djInit (src : Nat) : DijkState :=
  { g := fun v => if v = src then some 0 else none,
    opn := [src],
    data := fun _ => none }

/-- The states reachable by the search loop (differential.rs:48-64).  The
queue produced by `PriorityQueueFactory` is modelled by its contract:
`next()` yields an open node whose `g` is minimal among the open nodes.
Each iteration stores `data[state][i] = node_g` and then relaxes every
edge the expander produces for the popped node. -/
inductive DijkReach (adj : Nat → List (Nat × ℚ)) (src : Nat) :
    DijkState → Prop where
  | init : DijkReach adj src (djInit src)
  | step (s : DijkState) (node : Nat) (gn : ℚ) :
      DijkReach adj src s → node ∈ s.opn → s.g node = some gn →
      (∀ m ∈ s.opn, ∀ gm, s.g m = some gm → gn ≤ gm) →
      DijkReach adj src ((adj node).foldl (djRelaxEdge gn)
        { s with
          opn := s.opn.erase node,
          data := fun v => if v = node then some gn else s.data v })

/-- Dijkstra invariant: finite `g` values are realized by walks, stored
`data` entries are exact distances, settled nodes have all their edges
relaxed, open nodes have finite `g`, finite-`g` unsettled nodes are open,
settled nodes keep their `g`, and the source's `g` is 0. -/
def DijkInv (adj : Nat → List (Nat × ℚ)) (src : Nat) (s : DijkState) :
    Prop :=
  (∀ v q, s.g v = some q → DWalk adj src v q) ∧
  (∀ v q, s.data v = some q → IsDist adj src v q) ∧
  (∀ v q, s.data v = some q → ∀ p ∈ adj v,
    ∃ y, s.g p.1 = some y ∧ y ≤ q + p.2) ∧
  (∀ v ∈ s.opn, ∃ q, s.g v = some q) ∧
  (∀ v q, s.g v = some q → s.data v = none → v ∈ s.opn) ∧
  (∀ v q, s.data v = some q → s.g v = some q) ∧
  s.g src = some 0

/-- `DijkInv` during the relaxation fold of one pop: the popped `node` is
already stored with value `gn` but its edges may not all be relaxed yet. -/
def DijkMid (adj : Nat → List (Nat × ℚ)) (src node : Nat) (gn : ℚ)
    (s : DijkState) : Prop :=
  (∀ v q, s.g v = some q → DWalk adj src v q) ∧
  (∀ v q, s.data v = some q → IsDist adj src v q) ∧
  (∀ v q, s.data v = some q → v ≠ node → ∀ p ∈ adj v,
    ∃ y, s.g p.1 = some y ∧ y ≤ q + p.2) ∧
  (∀ v ∈ s.opn, ∃ q, s.g v = some q) ∧
  (∀ v q, s.g v = some q → s.data v = none → v ∈ s.opn) ∧
  (∀ v q, s.data v = some q → s.g v = some q) ∧
  s.g src = some 0 ∧
  s.data node = some gn

end Mkpath

namespace Mkpath

/-! ## Theorems -/

/-- **C1.** CPD row compression on the S3 input
`fm = [b1000, b1000, b0100, b0100, b0100, b0001, b0001]` produces exactly
the runs `[(0, 3), (2, 2), (5, 0)]` (in start-id order, before the
Eytzinger reordering, with the move index the trailing-zero count of the
surviving mask), and `lookup(3)` on the resulting row returns 2. -/
theorem cpd_compress_s3 :
    (compressRunsList ([8, 8, 4, 4, 4, 1, 1] : List Nat).enum).map
        (fun e => (e.start, e.edge)) = [(0, 3), (2, 2), (5, 0)] ∧
    (CpdRow.compress [8, 8, 4, 4, 4, 1, 1]).lookup 3 = 2 := by
  constructor
  · decide
  · decide

/-- **C9 (counterexample).** `CpdRow::compress` on the empty first-move
sequence does not produce an empty run list: its length is 1, not 0. -/
theorem cpd_compress_empty_cex : ¬ (CpdRow.compress []).len = 0 := by decide

/-- **C9 (amended).** `CpdRow::compress` on the empty first-move sequence
produces a row with exactly one run `(0, 0)`: the initial
`current_moves = !0` satisfies `!0 & 0 == 0`, so the `(0, 0)` terminator
flushes the pending initial run. -/
theorem cpd_compress_empty :
    (CpdRow.compress []).len = 1 ∧
    (CpdRow.compress []).runs.map (fun e => (e.start, e.edge)) = [(0, 0)] := by
  constructor
  · decide
  · decide

/-- **C6 (counterexample).** The entries produced by compression do not pack
as `(start_id << 6) | (first_move_index & 0x3F)`: on the S3 input the run
`(2, 2)` is stored as `2 | (2 << 26) = 134217730`, not `(2 << 6) | 2 = 130`. -/
theorem cpd_entry_packing_cex :
    ¬ ∀ e ∈ (CpdRow.compress [8, 8, 4, 4, 4, 1, 1]).runs,
        e.val = (e.start <<< 6) ||| (e.edge &&& 63) := by decide

/-- **C6 (amended).** Every 32-bit CPD entry produced by compression packs its
two fields as `(first_move_index << 26) | start_id`: the start id occupies the
26 least-significant bits and the first-move index the 6 high bits
(`compressLoop` emits exactly the packings of the pair-level run list), and
`u32LeBytes` — used by `CpdRow::save` for the length and every entry — is the
little-endian byte serialization. -/
theorem cpd_entry_packing :
    (∀ l cid cm, compressLoop l cid cm = (compressPairsLoop l cid cm).map packEntry) ∧
    (∀ s m : Nat, s < 2 ^ 26 → m < 64 →
      (packEntry (s, m)).val = (m <<< 26) ||| s ∧
      (packEntry (s, m)).start = s ∧ (packEntry (s, m)).edge = m) ∧
    (∀ x : Nat, x < 2 ^ 32 →
      (u32LeBytes x).foldr (fun b acc => b + 2 ^ 8 * acc) 0 = x ∧
      ∀ b ∈ u32LeBytes x, b < 256) := by
  refine ⟨?_, ?_, ?_⟩
  · intro l
    induction l with
    | nil => intro cid cm; rfl
    | cons hd tl ih =>
      intro cid cm
      obtain ⟨id, moves⟩ := hd
      by_cases hc : cm &&& moves = 0
      · simp [compressLoop, compressPairsLoop, hc, packEntry, ih]
      · simp [compressLoop, compressPairsLoop, hc, ih]
  · intro s m hs hm
    have hshift : m <<< 26 < 2 ^ 32 := by
      rw [Nat.shiftLeft_eq]
      calc m * 2 ^ 26 < 64 * 2 ^ 26 :=
            (Nat.mul_lt_mul_right (by norm_num)).mpr hm
        _ ≤ 2 ^ 32 := by norm_num
    have hval : (packEntry (s, m)).val = s ||| m <<< 26 := by
      show s ||| (m <<< 26) % 2 ^ 32 = s ||| m <<< 26
      rw [Nat.mod_eq_of_lt hshift]
    refine ⟨?_, ?_, ?_⟩
    · rw [hval, Nat.lor_comm]
    · rw [CpdEntry.start, hval, Nat.one_shiftLeft]
      apply Nat.eq_of_testBit_eq
      intro i
      simp only [Nat.testBit_land, Nat.testBit_lor, Nat.testBit_shiftLeft,
        Nat.testBit_two_pow_sub_one, ge_iff_le]
      by_cases hi : i < 26
      · have h26 : ¬ 26 ≤ i := by omega
        simp only [hi, h26, decide_True, decide_False, Bool.false_and,
          Bool.or_false, Bool.and_true]
      · have h26 : 26 ≤ i := by omega
        have hsb : s.testBit i = false :=
          Nat.testBit_lt_two_pow
            (lt_of_lt_of_le hs (Nat.pow_le_pow_right (by norm_num) h26))
        simp only [hi, hsb, decide_False, Bool.and_false]
    · rw [CpdEntry.edge, hval]
      apply Nat.eq_of_testBit_eq
      intro i
      have hsb : s.testBit (26 + i) = false :=
        Nat.testBit_lt_two_pow
          (lt_of_lt_of_le hs (Nat.pow_le_pow_right (by norm_num) (by omega)))
      simp only [Nat.testBit_shiftRight, Nat.testBit_lor, Nat.testBit_shiftLeft,
        hsb, Bool.false_or, ge_iff_le, Nat.le_add_right, decide_True,
        Bool.true_and, Nat.add_sub_cancel_left]
  · intro x hx
    refine ⟨?_, ?_⟩
    · simp only [u32LeBytes, List.foldr]
      omega
    · intro b hb
      simp only [u32LeBytes, List.mem_cons, List.not_mem_nil, or_false] at hb
      rcases hb with h | h | h | h <;> subst h <;> omega

/-- **C6 (witness).** Packing and unpacking at `(start, move) = (5, 7)`. -/
theorem cpd_entry_packing_witness :
    (packEntry (5, 7)).val = (7 <<< 26) ||| 5 ∧
    (packEntry (5, 7)).start = 5 ∧ (packEntry (5, 7)).edge = 7 :=
  cpd_entry_packing.2.1 5 7 (by decide) (by decide)

/-- **C3.** For every 8-bit neighborhood and every incoming direction (or
none), the canonical successor set contains only directions traversable in
`nb`, and the successors under an incoming direction are a subset of the
successors under `None`. -/
theorem canonical_successors_subset :
    ∀ nb : Nat, nb < 256 → ∀ going : Option Direction,
      canonical_successors nb going &&& nb = canonical_successors nb going ∧
      canonical_successors nb going &&& canonical_successors nb none =
        canonical_successors nb going := by decide

/-- **C3 (witness).** The subset properties at the fully open neighborhood
with incoming direction North. -/
theorem canonical_successors_subset_witness :
    canonical_successors 255 (some .north) &&& 255 =
      canonical_successors 255 (some .north) ∧
    canonical_successors 255 (some .north) &&& canonical_successors 255 none =
      canonical_successors 255 (some .north) :=
  canonical_successors_subset 255 (by decide) (some .north)

/-- The canonical successor set is an 8-bit mask. -/
theorem canonical_none_lt : ∀ nb : Nat, nb < 256 →
    canonical_successors nb none < 256 := by decide

set_option maxRecDepth 4096 in
set_option maxHeartbeats 4000000 in
/-- Kernel-checked finite verification of `c4Bool`. -/
theorem c4_check_bool : c4Bool = true := by rfl

/-- Extraction of the finite check: with all eight jump-point directions,
every non-empty first-move subset of the valid moves has a non-zero
tie-break entry. -/
theorem tiebreakEntry_all_ne_zero : ∀ nb fm : Nat, nb < 256 → fm < 256 →
    fm ≠ 0 → fm &&& canonical_successors nb none = fm →
    tiebreakEntry nb 255 fm ≠ 0 := by
  intro nb fm hnb hfm hne hsub
  have h := c4_check_bool
  simp only [c4Bool, List.all_eq_true, List.mem_range] at h
  have h2 := h nb hnb fm hfm
  simp only [Bool.or_eq_true, beq_iff_eq, Bool.not_eq_true', beq_eq_false_iff_ne,
    ne_eq, bne_iff_ne] at h2
  tauto

/-- Folding over a filtered list is folding with a guard. -/
theorem foldl_filter_eq {α β : Type} (p : α → Bool) (f : β → α → β) :
    ∀ (l : List α) (b : β),
      (l.filter p).foldl f b = l.foldl (fun acc x => if p x then f acc x else acc) b := by
  intro l
  induction l with
  | nil => intro b; rfl
  | cons hd tl ih =>
    intro b
    by_cases hp : p hd
    · simp [List.filter_cons, hp, ih]
    · simp [List.filter_cons, hp, ih]

/-- Intersecting both sides of a bitmask inclusion with a common mask
preserves the inclusion. -/
theorem land_subset_mono {s r c : Nat} (h : s &&& r = s) :
    (s &&& c) &&& (r &&& c) = s &&& c := by
  apply Nat.eq_of_testBit_eq
  intro i
  have h2 := congrArg (fun x => Nat.testBit x i) h
  simp only [Nat.testBit_land] at h2 ⊢
  cases hsi : s.testBit i <;> cases hri : r.testBit i <;> cases hci : c.testBit i <;>
    simp_all

/-- A sub-mask intersected with a common mask is still included in the
super-mask. -/
theorem land_subset_left {s r c : Nat} (h : s &&& r = s) :
    (s &&& c) &&& r = s &&& c := by
  apply Nat.eq_of_testBit_eq
  intro i
  have h2 := congrArg (fun x => Nat.testBit x i) h
  simp only [Nat.testBit_land] at h2 ⊢
  cases hsi : s.testBit i <;> cases hri : r.testBit i <;> cases hci : c.testBit i <;>
    simp_all

/-- Guarded-intersection folds are monotone in the guard: folding with a
stronger selector (pointwise implying the weaker one on the sub-mask side)
keeps the sub-mask included in the weaker fold's result. -/
theorem tiebreakFold_subset (C : Direction → Nat) (irr m₁ m₂ : Direction → Bool)
    (himp : ∀ d, m₁ d = true → m₂ d = true) :
    ∀ (l : List Direction) (s r : Nat), s &&& r = s →
      (l.foldl (fun acc d => if m₂ d then (if irr d then acc else acc &&& C d) else acc) s) &&&
        (l.foldl (fun acc d => if m₁ d then (if irr d then acc else acc &&& C d) else acc) r) =
      l.foldl (fun acc d => if m₂ d then (if irr d then acc else acc &&& C d) else acc) s := by
  intro l
  induction l with
  | nil => intro s r h; exact h
  | cons hd tl ih =>
    intro s r h
    simp only [List.foldl_cons]
    apply ih
    by_cases h2 : m₂ hd
    · by_cases h1 : m₁ hd
      · by_cases hirr : irr hd
        · simpa [h1, h2, hirr] using h
        · simpa [h1, h2, hirr] using land_subset_mono h
      · by_cases hirr : irr hd
        · simpa [h1, h2, hirr] using h
        · simpa [h1, h2, hirr] using land_subset_left h
    · have h1 : ¬ m₁ hd = true := fun hm => h2 (himp hd hm)
      simpa [h1, h2] using h

/-- **C4.** For every neighborhood, every jump-point direction set and every
non-empty first-move set that is a subset of the canonical successors under
`None`, the tie-break table entry is non-empty (so the assertion inside
`compute_tiebreak_table` never fails). -/
theorem tiebreak_table_nonempty :
    ∀ nb jps fm : Nat, nb < 256 → jps < 256 → fm ≠ 0 →
      fm &&& canonical_successors nb none = fm →
      (compute_tiebreak_table nb jps).getD fm 0 ≠ 0 := by
  intro nb jps fm hnb hjps hfm hsub
  have hvlt : canonical_successors nb none < 256 := canonical_none_lt nb hnb
  have hfm256 : fm < 256 := by
    have hle : fm &&& canonical_successors nb none ≤ canonical_successors nb none :=
      Nat.and_le_right
    omega
  have hgetD : (compute_tiebreak_table nb jps).getD fm 0 = tiebreakEntry nb jps fm := by
    simp [compute_tiebreak_table, List.getD_eq_getElem?_getD, List.getElem?_map,
      List.getElem?_range, hfm256, hfm]
  rw [hgetD]
  have hmono := tiebreakFold_subset (fun d => canonical_successors nb (some d))
      (fun d => is_irrelevant_jp d fm nb)
      (fun d => decide (jps &&& d.mask ≠ 0))
      (fun d => decide (255 &&& d.mask ≠ 0))
      (fun d _ => (by decide : ∀ d : Direction, decide (255 &&& d.mask ≠ 0) = true) d)
      dirList fm fm (Nat.and_self fm)
  have h255 : tiebreakEntry nb 255 fm ≠ 0 := tiebreakEntry_all_ne_zero nb fm hnb hfm256 hfm hsub
  have hunfold : ∀ j : Nat, tiebreakEntry nb j fm =
      dirList.foldl (fun acc d => if decide (j &&& d.mask ≠ 0) = true then
        (if is_irrelevant_jp d fm nb then acc else acc &&& canonical_successors nb (some d))
        else acc) fm := by
    intro j
    simp only [tiebreakEntry, hsub, if_pos]
    rw [foldl_filter_eq]
  have key : tiebreakEntry nb 255 fm &&& tiebreakEntry nb jps fm =
      tiebreakEntry nb 255 fm := by
    rw [hunfold 255, hunfold jps]
    exact hmono
  intro hzero
  apply h255
  rw [← key, hzero, Nat.and_zero]

/-- **C4 (witness).** The S4 scenario: fully open neighborhood, jump point
set `{North}`, first-move set `W | E` — the table entry is non-empty. -/
theorem tiebreak_table_nonempty_witness :
    (compute_tiebreak_table 255 1).getD 10 0 ≠ 0 :=
  tiebreak_table_nonempty 255 1 10 (by decide) (by decide) (by decide) (by decide)

/-- The root of a subtree is its least element. -/
theorem desc_le {k j : Nat} (h : Desc k j) : k ≤ j := by
  induction h with
  | refl k => exact Nat.le_refl k
  | left _ ih => omega
  | right _ ih => omega

/-- Subtree membership is transitive. -/
theorem desc_trans {a p j : Nat} (h1 : Desc a p) : Desc p j → Desc a j := by
  induction h1 with
  | refl => exact id
  | left _ ih => exact fun h2 => .left (ih h2)
  | right _ ih => exact fun h2 => .right (ih h2)

/-- A subtree member is the root or a member of one of the child subtrees. -/
theorem desc_cases {a j : Nat} (h : Desc a j) :
    j = a ∨ Desc (2 * a + 1) j ∨ Desc (2 * a + 2) j := by
  cases h with
  | refl => exact Or.inl rfl
  | left h => exact Or.inr (Or.inl h)
  | right h => exact Or.inr (Or.inr h)

/-- The parent of a proper subtree member is also in the subtree. -/
theorem desc_parent {a j : Nat} (h : Desc a j) : j ≠ a → Desc a ((j - 1) / 2) := by
  induction h with
  | refl k => exact fun hne => absurd rfl hne
  | @left k j h ih =>
    intro _
    by_cases hj : j = 2 * k + 1
    · subst hj
      have hp : (2 * k + 1 - 1) / 2 = k := by omega
      rw [hp]
      exact .refl k
    · exact .left (ih hj)
  | @right k j h ih =>
    intro _
    by_cases hj : j = 2 * k + 2
    · subst hj
      have hp : (2 * k + 2 - 1) / 2 = k := by omega
      rw [hp]
      exact .refl k
    · exact .right (ih hj)

/-- Two subtrees containing a common element are nested. -/
theorem desc_total : ∀ j a b : Nat, Desc a j → Desc b j → Desc a b ∨ Desc b a := by
  intro j
  induction j using Nat.strong_induction_on with
  | _ j ih =>
    intro a b ha hb
    by_cases hja : j = a
    · subst hja
      exact Or.inr hb
    by_cases hjb : j = b
    · subst hjb
      exact Or.inl ha
    have hj0 : j ≠ 0 := by
      intro h0
      subst h0
      have := desc_le ha
      omega
    exact ih ((j - 1) / 2) (by omega) a b (desc_parent ha hja) (desc_parent hb hjb)

/-- The two child subtrees of a node are disjoint. -/
theorem desc_sibling {k j : Nat} (h1 : Desc (2 * k + 1) j) (h2 : Desc (2 * k + 2) j) :
    False := by
  rcases desc_total j _ _ h1 h2 with h | h
  · rcases desc_cases h with he | h | h
    · omega
    · have := desc_le h; omega
    · have := desc_le h; omega
  · have := desc_le h; omega

/-- Unfolding of the in-order traversal at an in-range node. -/
theorem inorderIdx_pos {n k : Nat} (h : k < n) :
    inorderIdx n k = inorderIdx n (2 * k + 1) ++ k :: inorderIdx n (2 * k + 2) := by
  rw [inorderIdx]
  simp [h]

/-- The in-order traversal below the tree is empty. -/
theorem inorderIdx_neg {n k : Nat} (h : ¬ k < n) : inorderIdx n k = [] := by
  rw [inorderIdx]
  simp [h]

/-- Every traversed index belongs to the subtree. -/
theorem mem_inorder_desc : ∀ (g n k j : Nat), n - k ≤ g → j ∈ inorderIdx n k → Desc k j := by
  intro g
  induction g with
  | zero =>
    intro n k j hg hj
    rw [inorderIdx_neg (by omega)] at hj
    cases hj
  | succ g ih =>
    intro n k j hg hj
    by_cases hk : k < n
    · rw [inorderIdx_pos hk] at hj
      rcases List.mem_append.mp hj with h | h
      · exact .left (ih n (2 * k + 1) j (by omega) h)
      · rcases List.mem_cons.mp h with he | h
        · exact he ▸ .refl k
        · exact .right (ih n (2 * k + 2) j (by omega) h)
    · rw [inorderIdx_neg hk] at hj
      cases hj

/-- Every traversed index is in range. -/
theorem mem_inorder_lt : ∀ (g n k j : Nat), n - k ≤ g → j ∈ inorderIdx n k → j < n := by
  intro g
  induction g with
  | zero =>
    intro n k j hg hj
    rw [inorderIdx_neg (by omega)] at hj
    cases hj
  | succ g ih =>
    intro n k j hg hj
    by_cases hk : k < n
    · rw [inorderIdx_pos hk] at hj
      rcases List.mem_append.mp hj with h | h
      · exact ih n (2 * k + 1) j (by omega) h
      · rcases List.mem_cons.mp h with he | h
        · omega
        · exact ih n (2 * k + 2) j (by omega) h
    · rw [inorderIdx_neg hk] at hj
      cases hj

/-- Every in-range subtree member is traversed. -/
theorem desc_mem_inorder {n k j : Nat} (h : Desc k j) : j < n → j ∈ inorderIdx n k := by
  induction h with
  | refl k =>
    intro hk
    rw [inorderIdx_pos hk]
    exact List.mem_append_right _ (List.mem_cons_self k _)
  | @left k j h ih =>
    intro hj
    have hkn : k < n := by
      have := desc_le h
      omega
    rw [inorderIdx_pos hkn]
    exact List.mem_append_left _ (ih hj)
  | @right k j h ih =>
    intro hj
    have hkn : k < n := by
      have := desc_le h
      omega
    rw [inorderIdx_pos hkn]
    exact List.mem_append_right _ (List.mem_cons_of_mem _ (ih hj))

/-- The in-order traversal has no duplicates. -/
theorem inorder_nodup : ∀ (g n k : Nat), n - k ≤ g → (inorderIdx n k).Nodup := by
  intro g
  induction g with
  | zero =>
    intro n k hg
    rw [inorderIdx_neg (by omega)]
    exact List.nodup_nil
  | succ g ih =>
    intro n k hg
    by_cases hk : k < n
    · rw [inorderIdx_pos hk, List.nodup_append]
      refine ⟨ih n (2 * k + 1) (by omega), ?_, ?_⟩
      · rw [List.nodup_cons]
        refine ⟨fun hmem => ?_, ih n (2 * k + 2) (by omega)⟩
        have := desc_le (mem_inorder_desc (n - (2 * k + 2)) n (2 * k + 2) k (le_refl _) hmem)
        omega
      · intro a haA haKB
        have hdA := mem_inorder_desc (n - (2 * k + 1)) n (2 * k + 1) a (le_refl _) haA
        rcases List.mem_cons.mp haKB with he | hB
        · subst he
          have := desc_le hdA
          omega
        · exact desc_sibling hdA (mem_inorder_desc (n - (2 * k + 2)) n (2 * k + 2) a (le_refl _) hB)
    · rw [inorderIdx_neg hk]
      exact List.nodup_nil

/-- Every index is in the subtree of the root. -/
theorem desc_zero : ∀ j, Desc 0 j := by
  intro j
  induction j using Nat.strong_induction_on with
  | _ j ih =>
    rcases Nat.eq_zero_or_pos j with h0 | hpos
    · exact h0 ▸ .refl 0
    · have hp := ih ((j - 1) / 2) (by omega)
      have hj : j = 2 * ((j - 1) / 2) + 1 ∨ j = 2 * ((j - 1) / 2) + 2 := by omega
      rcases hj with h | h
      · exact h ▸ desc_trans hp (.left (.refl _))
      · exact h ▸ desc_trans hp (.right (.refl _))

/-- The in-order traversal from the root is a permutation of `[0, n)`. -/
theorem inorder_zero_perm (n : Nat) : (inorderIdx n 0).Perm (List.range n) := by
  refine (List.perm_ext_iff_of_nodup (inorder_nodup n n 0 (by omega)) (List.nodup_range n)).mpr ?_
  intro a
  simp only [List.mem_range]
  constructor
  · exact fun h => mem_inorder_lt n n 0 a (by omega) h
  · exact fun h => desc_mem_inorder (desc_zero a) h

/-- The in-order traversal from the root has length `n`. -/
theorem inorder_zero_length (n : Nat) : (inorderIdx n 0).length = n := by
  simpa using (inorder_zero_perm n).length_eq

/-- Splitting a `take` around one position. -/
theorem take_split (items : List CpdEntry) (m p : Nat) (hm : m < items.length) :
    items.take (m + 1 + p) =
      items.take m ++ items.get ⟨m, hm⟩ :: (items.drop (m + 1)).take p := by
  conv_lhs => rw [← List.take_append_drop (m + 1) (items.take (m + 1 + p))]
  have h1 : (items.take (m + 1 + p)).take (m + 1) = items.take (m + 1) := by
    rw [List.take_take]
    congr 1
    omega
  have h2 : (items.take (m + 1 + p)).drop (m + 1) = (items.drop (m + 1)).take p := by
    rw [List.take_drop]
  have h3 : items.take (m + 1) = items.take m ++ [items.get ⟨m, hm⟩] := by
    rw [List.take_succ, List.getElem?_eq_getElem hm]
    simp [List.get_eq_getElem]
  rw [h1, h2, h3, List.append_assoc, List.singleton_append]

/-- Behaviour of the `reorder_eytzinger` recursion on the subtree rooted at
`k`: it consumes exactly the subtree-size prefix of the item list, writes
those items into the subtree slots in in-order, and leaves every slot
outside the subtree unchanged. -/
theorem reorderAux_spec :
    ∀ (fuel n k : Nat) (items : List CpdEntry) (into : Nat → CpdEntry),
      n - k ≤ fuel → (inorderIdx n k).length ≤ items.length →
      (reorderAux fuel items n k into).1 = items.drop (inorderIdx n k).length ∧
      (∀ j, ¬ Desc k j → (reorderAux fuel items n k into).2 j = into j) ∧
      List.map (reorderAux fuel items n k into).2 (inorderIdx n k) =
        items.take (inorderIdx n k).length := by
  intro fuel
  induction fuel with
  | zero =>
    intro n k items into hg hlen
    rw [inorderIdx_neg (by omega)]
    simp [reorderAux]
  | succ fuel ih =>
    intro n k items into hg hlen
    by_cases hk : k < n
    case neg =>
      rw [inorderIdx_neg hk]
      simp [reorderAux, hk]
    case pos =>
    rw [inorderIdx_pos hk] at hlen ⊢
    simp only [List.length_append, List.length_cons] at hlen
    obtain ⟨h1a, h1b, h1c⟩ := ih n (2 * k + 1) items into (by omega) (by omega)
    have hmA : (inorderIdx n (2 * k + 1)).length < items.length := by omega
    have hdropA : items.drop (inorderIdx n (2 * k + 1)).length =
        items.get ⟨(inorderIdx n (2 * k + 1)).length, hmA⟩ ::
          items.drop ((inorderIdx n (2 * k + 1)).length + 1) := by
      rw [List.drop_eq_getElem_cons hmA]
      simp [List.get_eq_getElem]
    obtain ⟨h2a, h2b, h2c⟩ := ih n (2 * k + 2)
        (items.drop ((inorderIdx n (2 * k + 1)).length + 1))
        (fun j => if j = k then items.get ⟨(inorderIdx n (2 * k + 1)).length, hmA⟩
          else (reorderAux fuel items n (2 * k + 1) into).2 j)
        (by omega) (by simp [List.length_drop]; omega)
    have hstep : reorderAux (fuel + 1) items n k into =
        reorderAux fuel (items.drop ((inorderIdx n (2 * k + 1)).length + 1)) n (2 * k + 2)
          (fun j => if j = k then items.get ⟨(inorderIdx n (2 * k + 1)).length, hmA⟩
            else (reorderAux fuel items n (2 * k + 1) into).2 j) := by
      have hr : reorderAux fuel items n (2 * k + 1) into =
          (items.get ⟨(inorderIdx n (2 * k + 1)).length, hmA⟩ ::
              items.drop ((inorderIdx n (2 * k + 1)).length + 1),
            (reorderAux fuel items n (2 * k + 1) into).2) := by
        calc reorderAux fuel items n (2 * k + 1) into
            = ((reorderAux fuel items n (2 * k + 1) into).1,
               (reorderAux fuel items n (2 * k + 1) into).2) := rfl
          _ = _ := by rw [h1a, hdropA]
      conv_lhs => rw [reorderAux, if_pos hk, hr]
    rw [hstep]
    refine ⟨?_, ?_, ?_⟩
    · rw [h2a, List.drop_drop]
      congr 1
      simp only [List.length_append, List.length_cons]
      omega
    · intro j hj
      have hj1 : ¬ Desc (2 * k + 1) j := fun h => hj (.left h)
      have hj2 : ¬ Desc (2 * k + 2) j := fun h => hj (.right h)
      have hjk : j ≠ k := fun he => hj (he ▸ .refl k)
      rw [h2b j hj2]
      simp only [hjk, if_false]
      exact h1b j hj1
    · rw [List.map_append, List.map_cons]
      have hfk : (reorderAux fuel (items.drop ((inorderIdx n (2 * k + 1)).length + 1)) n
          (2 * k + 2) (fun j => if j = k then items.get ⟨_, hmA⟩
            else (reorderAux fuel items n (2 * k + 1) into).2 j)).2 k =
          items.get ⟨(inorderIdx n (2 * k + 1)).length, hmA⟩ := by
        rw [h2b k (fun h => by have := desc_le h; omega)]
        simp
      have hfA : List.map (reorderAux fuel (items.drop ((inorderIdx n (2 * k + 1)).length + 1))
          n (2 * k + 2) (fun j => if j = k then items.get ⟨_, hmA⟩
            else (reorderAux fuel items n (2 * k + 1) into).2 j)).2
          (inorderIdx n (2 * k + 1)) =
          List.map (reorderAux fuel items n (2 * k + 1) into).2 (inorderIdx n (2 * k + 1)) := by
        apply List.map_congr_left
        intro a ha
        have hda := mem_inorder_desc (n - (2 * k + 1)) n (2 * k + 1) a (le_refl _) ha
        have hna : ¬ Desc (2 * k + 2) a := fun h => desc_sibling hda h
        have hak : a ≠ k := by
          have := desc_le hda
          omega
        rw [h2b a hna]
        simp [hak]
      rw [hfA, h1c, hfk, h2c]
      have hL : (inorderIdx n (2 * k + 1) ++ k :: inorderIdx n (2 * k + 2)).length =
          (inorderIdx n (2 * k + 1)).length + 1 + (inorderIdx n (2 * k + 2)).length := by
        simp [List.length_append, List.length_cons]
        omega
      rw [hL]
      exact (take_split items (inorderIdx n (2 * k + 1)).length
        (inorderIdx n (2 * k + 2)).length hmA).symm

/-- A fold over runs none of which match leaves the default unchanged. -/
theorem lookupFold_nomatch (id : Nat) : ∀ (l : List CpdEntry) (r : Nat),
    (∀ e ∈ l, ¬ e.start ≤ id) → lookupFold id l r = r := by
  intro l
  induction l with
  | nil => intro r _; rfl
  | cons hd tl ih =>
    intro r hall
    have hhd : ¬ hd.start ≤ id := hall hd (List.mem_cons_self _ _)
    have h1 : lookupFold id (hd :: tl) r = lookupFold id tl r := by
      simp [lookupFold, hhd]
    rw [h1]
    exact ih r (fun e he => hall e (List.mem_cons_of_mem _ he))

/-- The Eytzinger descent of `CpdRow::lookup` computes the predecessor fold
over the in-order contents of the visited subtree. -/
theorem lookupAux_eq_fold (f : Nat → CpdEntry) (n id : Nat) :
    ∀ (fuel k r : Nat) (ys : List CpdEntry),
      n - k ≤ fuel → List.map f (inorderIdx n k) = ys →
      ys.Pairwise (fun a b => a.start < b.start) →
      lookupAux ((List.range n).map f) id fuel k r = lookupFold id ys r := by
  intro fuel
  induction fuel with
  | zero =>
    intro k r ys hg hys _
    rw [inorderIdx_neg (by omega)] at hys
    simp only [List.map_nil] at hys
    subst hys
    rfl
  | succ fuel ih =>
    intro k r ys hg hys hsort
    by_cases hk : k < n
    case neg =>
      rw [inorderIdx_neg hk] at hys
      simp only [List.map_nil] at hys
      subst hys
      simp [lookupAux, List.length_map, List.length_range, hk, lookupFold]
    case pos =>
    rw [inorderIdx_pos hk] at hys
    simp only [List.map_append, List.map_cons] at hys
    subst hys
    have hkn : k < ((List.range n).map f).length := by simpa using hk
    have hget : ((List.range n).map f).get ⟨k, hkn⟩ = f k := by
      simp [List.get_eq_getElem]
    rcases List.pairwise_append.mp hsort with ⟨hsA, hsKB, -⟩
    rcases List.pairwise_cons.mp hsKB with ⟨hkB, hsB⟩
    have hrhs : lookupFold id (List.map f (inorderIdx n (2 * k + 1)) ++
        f k :: List.map f (inorderIdx n (2 * k + 2))) r =
        lookupFold id (List.map f (inorderIdx n (2 * k + 2)))
          (if (f k).start ≤ id then (f k).edge
            else lookupFold id (List.map f (inorderIdx n (2 * k + 1))) r) := by
      simp [lookupFold, List.foldl_append]
    rw [lookupAux, dif_pos hkn, hget, hrhs]
    by_cases hid : id < (f k).start
    · rw [if_pos hid, if_neg (by omega),
        lookupFold_nomatch id _ _ (fun e he => by have := hkB e he; omega)]
      exact ih (2 * k + 1) r _ (by omega) rfl hsA
    · rw [if_neg hid, if_pos (by omega)]
      exact ih (2 * k + 2) (f k).edge _ (by omega) rfl hsB

/-- The predecessor fold computes the edge of the last matching run. -/
theorem lookupFold_eq_spec (id : Nat) : ∀ (rs : List CpdEntry) (r : Nat),
    lookupFold id rs r =
      ((rs.filter (fun e => e.start ≤ id)).getLast?).elim r CpdEntry.edge := by
  intro rs
  induction rs with
  | nil => intro r; rfl
  | cons hd tl ih =>
    intro r
    by_cases hp : hd.start ≤ id
    · have h1 : lookupFold id (hd :: tl) r = lookupFold id tl hd.edge := by
        simp [lookupFold, hp]
      have h2 : (hd :: tl).filter (fun e => e.start ≤ id) =
          hd :: tl.filter (fun e => e.start ≤ id) := by
        simp [List.filter_cons, hp]
      rw [h1, ih, h2]
      cases hl : tl.filter (fun e => e.start ≤ id) with
      | nil => simp
      | cons a l =>
        rw [List.getLast?_cons_cons, List.getLast?_eq_getLast (a :: l) (by simp)]
        rfl
    · have h1 : lookupFold id (hd :: tl) r = lookupFold id tl r := by
        simp [lookupFold, hp]
      have h2 : (hd :: tl).filter (fun e => e.start ≤ id) =
          tl.filter (fun e => e.start ≤ id) := by
        simp [List.filter_cons, hp]
      rw [h1, ih, h2]

/-- **C2.** For every strictly sorted run sequence whose first run starts at
id 0, and every target id, `CpdRow::lookup` on the Eytzinger-reordered array
returns the same first-move index as binary search over the sorted run
sequence: the `first_move_index` of the run with the largest
`start_id ≤ target_id`. -/
theorem eytzinger_lookup_equiv (rs : List CpdEntry) (id : Nat)
    (hsorted : rs.Pairwise (fun a b => a.start < b.start))
    (_hne : rs ≠ []) (_hstart : rs.headI.start = 0) :
    (eytzingerOf rs).lookup id = specSortedLookup rs id := by
  have hmap : List.map (reorder_eytzinger rs rs.length 0 (fun j => rs.getD j ⟨0⟩)).2
      (inorderIdx rs.length 0) = rs := by
    obtain ⟨-, -, h3⟩ := reorderAux_spec rs.length rs.length 0 rs (fun j => rs.getD j ⟨0⟩)
        (by omega) (by rw [inorder_zero_length])
    rw [inorder_zero_length, List.take_length] at h3
    simpa [reorder_eytzinger, Nat.sub_zero] using h3
  have hlookup : (eytzingerOf rs).lookup id =
      lookupAux ((List.range rs.length).map
        (reorder_eytzinger rs rs.length 0 (fun j => rs.getD j ⟨0⟩)).2) id rs.length 0 0 := by
    simp [eytzingerOf, CpdRow.lookup]
  rw [hlookup,
    lookupAux_eq_fold (reorder_eytzinger rs rs.length 0 (fun j => rs.getD j ⟨0⟩)).2
      rs.length id rs.length 0 0 rs (by omega) hmap hsorted,
    lookupFold_eq_spec]
  rfl

/-- **C2 (witness).** The S3 run sequence `[(0,3), (2,2), (5,0)]` (packed) is
strictly sorted with first start 0, and Eytzinger lookup at id 3 agrees with
the sorted-sequence binary search. -/
theorem eytzinger_lookup_equiv_witness :
    ([⟨201326592⟩, ⟨134217730⟩, ⟨5⟩] : List CpdEntry).Pairwise
        (fun a b => a.start < b.start) ∧
    (eytzingerOf [⟨201326592⟩, ⟨134217730⟩, ⟨5⟩]).lookup 3 =
      specSortedLookup [⟨201326592⟩, ⟨134217730⟩, ⟨5⟩] 3 :=
  ⟨by decide, eytzinger_lookup_equiv _ 3 (by decide) (by decide) (by decide)⟩

/-- Testing a bit via `& (1 << i) != 0` is `testBit`. -/
theorem land_pow_ne_zero (b i : Nat) : (b &&& (1 <<< i) != 0) = b.testBit i := by
  have h : b &&& (1 <<< i) = if b.testBit i then 1 <<< i else 0 := by
    apply Nat.eq_of_testBit_eq
    intro j
    rw [Nat.testBit_land, Nat.one_shiftLeft, Nat.testBit_two_pow]
    by_cases hij : i = j
    · subst hij
      cases hb : b.testBit i <;>
        simp [hb, Nat.one_shiftLeft, Nat.testBit_two_pow]
    · cases hb : b.testBit i <;>
        simp [hij, hb, Nat.one_shiftLeft, Nat.testBit_two_pow]
  rw [h]
  have hpow : (2 : Nat) ^ i ≠ 0 := Nat.pos_iff_ne_zero.mp (Nat.pow_pos (by norm_num))
  cases hb : b.testBit i <;> simp [Nat.one_shiftLeft, hpow]

/-- Bit `m` of a little-endian byte load is bit `m % 8` of byte `m / 8`. -/
theorem leBytes_testBit : ∀ (c : Nat) (f : Nat → Nat) (byte m : Nat),
    (∀ i, f i < 256) → m < 8 * c →
    (leBytes c f byte).testBit m = (f (byte + m / 8)).testBit (m % 8) := by
  intro c
  induction c with
  | zero => intro f byte m _ hm; omega
  | succ c ih =>
    intro f byte m hf hm
    rw [leBytes, Nat.add_comm (f byte), Nat.testBit_mul_pow_two_add _ (hf byte)]
    by_cases hm8 : m < 8
    · rw [if_pos hm8]
      have h1 : byte + m / 8 = byte := by omega
      have h2 : m % 8 = m := by omega
      rw [h1, h2]
    · rw [if_neg hm8, ih f (byte + 1) (m - 8) hf (by omega)]
      have h1 : byte + 1 + (m - 8) / 8 = byte + m / 8 := by omega
      have h2 : (m - 8) % 8 = m % 8 := by omega
      rw [h1, h2]

/-- **C5 (row-slice arithmetic).** Bit `k` (`k < 57`) of `get_row_right(x, y)`
is exactly the addressed bit of cell `(x + k, y)`. -/
theorem get_row_right_testBit (g : BitGrid) (hf : ∀ i, g.bits i < 256)
    (x y : Int) (k : Nat) (hx : -1 ≤ x) (hk : k < 57) :
    (g.get_row_right x y).testBit k = g.get_unchecked (x + k) y := by
  have hpx' : (x + (k : Int) + 1).toNat = (x + 1).toNat + k := by omega
  simp only [BitGrid.get_row_right, BitGrid.get_unchecked, BitGrid.index]
  rw [Nat.testBit_shiftRight,
    leBytes_testBit 8 g.bits _ _ hf (by omega),
    land_pow_ne_zero, hpx']
  have hbyte : (x + 1).toNat / 8 + (y + 1).toNat * g.padded_width_bytes + 8 +
      ((x + 1).toNat % 8 + k) / 8 =
      ((x + 1).toNat + k) / 8 + (y + 1).toNat * g.padded_width_bytes + 8 := by
    omega
  have hbit : ((x + 1).toNat % 8 + k) % 8 = ((x + 1).toNat + k) % 8 := by
    omega
  rw [hbyte, hbit]

/-- `set_unchecked` keeps all bytes below 256. -/
theorem set_unchecked_bits_lt (g : BitGrid) (x y : Int) (t : Bool)
    (hf : ∀ i, g.bits i < 256) : ∀ i, (g.set_unchecked x y t).bits i < 256 := by
  intro i
  show (if i = (g.index x y).1 then
      (g.bits i &&& (255 ^^^ (1 <<< (g.index x y).2))) |||
        ((if t then 1 else 0) <<< (g.index x y).2)
    else g.bits i) < 256
  split
  · have h1 : g.bits i &&& (255 ^^^ (1 <<< (g.index x y).2)) < 2 ^ 8 :=
      lt_of_le_of_lt Nat.and_le_left (by simpa using hf i)
    have hb : (g.index x y).2 < 8 := by
      simp only [BitGrid.index]
      omega
    have h2 : (if t then 1 else 0) <<< (g.index x y).2 < 2 ^ 8 := by
      rw [Nat.shiftLeft_eq]
      have hle : (if t then 1 else 0) ≤ 1 := by cases t <;> simp
      calc (if t then 1 else 0) * 2 ^ (g.index x y).2
          ≤ 1 * 2 ^ (g.index x y).2 := Nat.mul_le_mul_right _ hle
        _ = 2 ^ (g.index x y).2 := Nat.one_mul _
        _ ≤ 2 ^ 7 := Nat.pow_le_pow_right (by norm_num) (by omega)
        _ < 2 ^ 8 := by norm_num
    simpa using Nat.or_lt_two_pow h1 h2
  · exact hf i

/-- `applySets` keeps all bytes below 256, and the grid geometry fixed. -/
theorem applySets_invariants : ∀ (ops : List (Int × Int × Bool)) (g : BitGrid),
    (∀ i, g.bits i < 256) →
    (∀ i, (applySets g ops).bits i < 256) ∧
    (applySets g ops).width = g.width ∧ (applySets g ops).height = g.height ∧
    (applySets g ops).padded_width_bytes = g.padded_width_bytes := by
  intro ops
  induction ops with
  | nil => intro g hf; exact ⟨hf, rfl, rfl, rfl⟩
  | cons hd tl ih =>
    intro g hf
    obtain ⟨x, y, t⟩ := hd
    obtain ⟨h1, h2, h3, h4⟩ := ih (g.set_unchecked x y t) (set_unchecked_bits_lt g x y t hf)
    exact ⟨h1, h2, h3, h4⟩

/-- Quotient-remainder uniqueness. -/
theorem mul_add_cancel {q r s a b : Nat} (hr : r < q) (hs : s < q)
    (h : r + a * q = s + b * q) : a = b ∧ r = s := by
  have hq : 0 < q := by omega
  have h1 : (r + a * q) / q = a := by
    rw [Nat.add_mul_div_right _ _ hq, Nat.div_eq_of_lt hr]
    omega
  have h2 : (s + b * q) / q = b := by
    rw [Nat.add_mul_div_right _ _ hq, Nat.div_eq_of_lt hs]
    omega
  have hab : a = b := by
    rw [← h1, ← h2, h]
  constructor
  · exact hab
  · subst hab
    omega

/-- The byte/bit address of an interior cell differs from that of any padding
cell. -/
theorem index_ne_padding (g : BitGrid) (hwf : g.padded_width_bytes = g.width.toNat / 8 + 1)
    (hw : 0 ≤ g.width) (hh : 0 ≤ g.height)
    {x' y' : Int} (hx'0 : 0 ≤ x') (hx'w : x' < g.width) (hy'0 : 0 ≤ y') (hy'h : y' < g.height)
    {x y : Int} (hpad : g.isPadding x y) :
    g.index x' y' ≠ g.index x y := by
  intro h
  have hb := congrArg Prod.fst h
  have hbit := congrArg Prod.snd h
  simp only [BitGrid.index] at hb hbit
  rw [hwf] at hb
  obtain ⟨⟨hp1, hp2, hp3, hp4⟩, hcases⟩ := hpad
  by_cases hedge : (x + 1).toNat / 8 = g.width.toNat / 8 + 1
  · -- only possible when `x + 1 = width + 1` and `width % 8 = 7`: the cell
    -- aliases the bit addressed by `(-1, y + 1)`, also padding; no interior
    -- cell addresses it
    have hexp : ((y + 1).toNat + 1) * (g.width.toNat / 8 + 1) =
        (y + 1).toNat * (g.width.toNat / 8 + 1) + (g.width.toNat / 8 + 1) := by
      ring
    have heq : (x' + 1).toNat / 8 + (y' + 1).toNat * (g.width.toNat / 8 + 1) =
        0 + ((y + 1).toNat + 1) * (g.width.toNat / 8 + 1) := by
      omega
    obtain ⟨he1, he2⟩ := mul_add_cancel (by omega) (by omega) heq
    omega
  · have hmain := mul_add_cancel (q := g.width.toNat / 8 + 1)
        (r := (x' + 1).toNat / 8) (s := (x + 1).toNat / 8)
        (a := (y' + 1).toNat) (b := (y + 1).toNat)
        (by omega) (by omega) (by omega)
    obtain ⟨hm1, hm2⟩ := hmain
    rcases hcases with hc | hc | hc | hc <;> omega

/-- `get_unchecked` reads the addressed bit. -/
theorem get_unchecked_testBit (g : BitGrid) (x y : Int) :
    g.get_unchecked x y = (g.bits (g.index x y).1).testBit (g.index x y).2 :=
  land_pow_ne_zero _ _

/-- A write at a differently addressed cell does not change a read. -/
theorem set_get_other (g : BitGrid) (x' y' x y : Int) (t : Bool)
    (hne : g.index x' y' ≠ g.index x y) :
    (g.set_unchecked x' y' t).get_unchecked x y = g.get_unchecked x y := by
  rw [get_unchecked_testBit, get_unchecked_testBit]
  show (if (g.index x y).1 = (g.index x' y').1 then
      (g.bits (g.index x y).1 &&& (255 ^^^ (1 <<< (g.index x' y').2))) |||
        ((if t then 1 else 0) <<< (g.index x' y').2)
    else g.bits (g.index x y).1).testBit (g.index x y).2 =
    (g.bits (g.index x y).1).testBit (g.index x y).2
  by_cases hbe : (g.index x y).1 = (g.index x' y').1
  · rw [if_pos hbe]
    have hbitne : (g.index x y).2 ≠ (g.index x' y').2 :=
      fun hb => hne (Prod.ext hbe.symm hb.symm)
    have hbi8 : (g.index x y).2 < 8 := by
      simp only [BitGrid.index]
      omega
    have h255 : (255 : Nat).testBit (g.index x y).2 = true := by
      rw [show (255 : Nat) = 2 ^ 8 - 1 by norm_num, Nat.testBit_two_pow_sub_one]
      simpa using hbi8
    have hd : (g.index x' y').2 ≠ (g.index x y).2 := fun hb => hbitne hb.symm
    have htv : ((if t then 1 else 0) <<< (g.index x' y').2).testBit (g.index x y).2
        = false := by
      cases t
      · simp
      · simp [Nat.one_shiftLeft, Nat.testBit_two_pow, hd]
    simp [Nat.testBit_lor, Nat.testBit_land, Nat.testBit_xor, htv, h255, hd,
      Nat.one_shiftLeft, Nat.testBit_two_pow]
  · rw [if_neg hbe]

/-- `applySets` never changes the grid geometry. -/
theorem applySets_geometry : ∀ (ops : List (Int × Int × Bool)) (g : BitGrid),
    (applySets g ops).width = g.width ∧ (applySets g ops).height = g.height ∧
    (applySets g ops).padded_width_bytes = g.padded_width_bytes := by
  intro ops
  induction ops with
  | nil => exact fun g => ⟨rfl, rfl, rfl⟩
  | cons hd tl ih =>
    intro g
    obtain ⟨x, y, t⟩ := hd
    exact ih (g.set_unchecked x y t)

/-- After interior writes starting from a grid whose padding reads 0, the
padding still reads 0. -/
theorem applySets_padding_false :
    ∀ (ops : List (Int × Int × Bool)) (g : BitGrid),
      g.padded_width_bytes = g.width.toNat / 8 + 1 → 0 ≤ g.width → 0 ≤ g.height →
      (∀ x y, g.isPadding x y → g.get_unchecked x y = false) →
      (∀ op ∈ ops, 0 ≤ op.1 ∧ op.1 < g.width ∧ 0 ≤ op.2.1 ∧ op.2.1 < g.height) →
      ∀ x y, (applySets g ops).isPadding x y →
        (applySets g ops).get_unchecked x y = false := by
  intro ops
  induction ops with
  | nil => exact fun g _ _ _ hpad _ x y hp => hpad x y hp
  | cons hd tl ih =>
    intro g hwf hw hh hpad hops x y hp
    obtain ⟨x', y', t⟩ := hd
    obtain ⟨hb1, hb2, hb3, hb4⟩ := hops (x', y', t) (List.mem_cons_self _ _)
    refine ih (g.set_unchecked x' y' t) hwf hw hh ?_
      (fun op hop => hops op (List.mem_cons_of_mem _ hop)) x y hp
    intro a b hpab
    have hpab' : g.isPadding a b := hpab
    rw [set_get_other g x' y' a b t
      (index_ne_padding g hwf hw hh hb1 hb2 hb3 hb4 hpab')]
    exact hpad a b hpab'

/-- **C5.** For every bit grid built by `BitGrid::new` followed by interior
`set` writes, and every `(x, y)` in the padded range such that cells `(x, y)`
through `(x+56, y)` lie within the padded grid, bit `k` (`k < 57`) of
`get_row_right(x, y)` equals the traversability of cell `(x+k, y)`
(`get_unchecked`), and padding cells read as untraversable. -/
theorem bitgrid_get_row_right (w h : Int) (hw : 0 ≤ w) (hh : 0 ≤ h)
    (ops : List (Int × Int × Bool))
    (hops : ∀ op ∈ ops, 0 ≤ op.1 ∧ op.1 < w ∧ 0 ≤ op.2.1 ∧ op.2.1 < h)
    (x y : Int) (k : Nat) (hx : -1 ≤ x) (_hxw : x + 56 ≤ w)
    (_hy : -1 ≤ y) (_hyh : y ≤ h) (hk : k < 57) :
    ((applySets (BitGrid.new w h) ops).get_row_right x y).testBit k =
      (applySets (BitGrid.new w h) ops).get_unchecked (x + k) y ∧
    ((applySets (BitGrid.new w h) ops).isPadding (x + k) y →
      (applySets (BitGrid.new w h) ops).get_unchecked (x + k) y = false) := by
  have hb0 : ∀ i, (BitGrid.new w h).bits i < 256 := fun _ => by norm_num [BitGrid.new]
  obtain ⟨hbits, -, -, -⟩ := applySets_invariants ops (BitGrid.new w h) hb0
  constructor
  · exact get_row_right_testBit _ hbits x y k hx hk
  · intro hp
    refine applySets_padding_false ops (BitGrid.new w h) rfl hw hh ?_ hops _ _ hp
    intro a b _
    simp [BitGrid.get_unchecked, BitGrid.new]

/-- A union with a non-zero bitset is non-zero. -/
theorem lor_ne_zero_right {x y : Nat} (hy : y ≠ 0) : x ||| y ≠ 0 := by
  intro h
  obtain ⟨i, hi⟩ := Nat.ne_zero_implies_bit_true hy
  have h2 := congrArg (fun z => Nat.testBit z i) h
  simp [Nat.testBit_lor, hi] at h2

/-- A one-bit mask is non-zero. -/
theorem one_shiftLeft_ne_zero (i : Nat) : (1 <<< i : Nat) ≠ 0 := by
  rw [Nat.one_shiftLeft]
  exact Nat.pos_iff_ne_zero.mp (Nat.pow_pos (by norm_num))

/-- The main-loop edge fold keeps every open node's first-move set non-zero
and never touches the log, provided the popped node's set is non-zero. -/
theorem fmRelax_fold_inv (node_g : WithTop ℚ) (node_fm : Nat) (hn : node_fm ≠ 0) :
    ∀ (edges : List (Nat × ℚ × Nat)) (s : FMState),
      (∀ v ∈ s.openList, s.fm v ≠ 0) →
      (∀ v ∈ (edges.foldl (fmRelaxEdge node_g node_fm) s).openList,
        (edges.foldl (fmRelaxEdge node_g node_fm) s).fm v ≠ 0) ∧
      (edges.foldl (fmRelaxEdge node_g node_fm) s).log = s.log := by
  intro edges
  induction edges with
  | nil => intro s hinv; exact ⟨hinv, rfl⟩
  | cons e tl ih =>
    intro s hinv
    rw [List.foldl_cons]
    have hstep : (∀ v ∈ (fmRelaxEdge node_g node_fm s e).openList,
        (fmRelaxEdge node_g node_fm s e).fm v ≠ 0) ∧
        (fmRelaxEdge node_g node_fm s e).log = s.log := by
      simp only [fmRelaxEdge]
      split
      · refine ⟨?_, by trivial⟩
        intro v hv
        simp only [List.mem_append, List.mem_singleton] at hv
        by_cases hve : v = e.1
        · simp [hve, hn]
        · simp only [hve, if_false]
          rcases hv with h | h
          · exact hinv v h
          · exact absurd h hve
      · split
        · refine ⟨?_, by trivial⟩
          intro v hv
          by_cases hve : v = e.1
          · simp only [hve, if_pos rfl]
            exact lor_ne_zero_right hn
          · simp only [hve, if_false]
            exact hinv v hv
        · exact ⟨hinv, by trivial⟩
    obtain ⟨h1, h2⟩ := hstep
    obtain ⟨h3, h4⟩ := ih (fmRelaxEdge node_g node_fm s e) h1
    exact ⟨h3, h4.trans h2⟩

/-- The start-expansion fold keeps every open node's first-move set non-zero
(each is set to a one-bit mask) and never touches the log. -/
theorem fmStart_fold_inv :
    ∀ (edges : List (Nat × ℚ × Nat)) (s : FMState),
      (∀ v ∈ s.openList, s.fm v ≠ 0) →
      (∀ v ∈ (edges.foldl fmStartEdge s).openList,
        (edges.foldl fmStartEdge s).fm v ≠ 0) ∧
      (edges.foldl fmStartEdge s).log = s.log := by
  intro edges
  induction edges with
  | nil => intro s hinv; exact ⟨hinv, rfl⟩
  | cons e tl ih =>
    intro s hinv
    rw [List.foldl_cons]
    have hstep : (∀ v ∈ (fmStartEdge s e).openList, (fmStartEdge s e).fm v ≠ 0) ∧
        (fmStartEdge s e).log = s.log := by
      simp only [fmStartEdge]
      refine ⟨?_, by trivial⟩
      intro v hv
      simp only [List.mem_append, List.mem_singleton] at hv
      by_cases hve : v = e.1
      · simp [hve, one_shiftLeft_ne_zero]
      · simp only [hve, if_false]
        rcases hv with h | h
        · exact hinv v h
        · exact absurd h hve
    obtain ⟨h1, h2⟩ := hstep
    obtain ⟨h3, h4⟩ := ih (fmStartEdge s e) h1
    exact ⟨h3, h4.trans h2⟩

/-- Invariant of `FirstMoveSearcher::search`: every node in the open list
has a non-zero first-move set, and so does every `found` log entry. -/
theorem fmReach_inv {start : Nat} {s : FMState} (h : FMReach start s) :
    (∀ v ∈ s.openList, s.fm v ≠ 0) ∧ (∀ p ∈ s.log, p.2 ≠ 0) := by
  induction h with
  | init edges hids hcosts =>
    obtain ⟨h1, h2⟩ := fmStart_fold_inv edges
      { g := fun v => if v = start then 0 else ⊤, fm := fun _ => 0,
        openList := [], log := [] } (by intro v hv; cases hv)
    refine ⟨h1, ?_⟩
    have h3 : (fmInit start edges).log = [] := by
      simp only [fmInit]
      exact h2
    intro p hp
    rw [h3] at hp
    cases hp
  | @step s hs l1 l2 node hsplit edges hcosts ih =>
    obtain ⟨hopen, hlog⟩ := ih
    have hnode : s.fm node ≠ 0 := by
      apply hopen
      rw [hsplit]
      exact List.mem_append_right _ (List.mem_cons_self _ _)
    have hinv' : ∀ v ∈ l1 ++ l2, s.fm v ≠ 0 := by
      intro v hv
      apply hopen
      rw [hsplit]
      rcases List.mem_append.mp hv with h | h
      · exact List.mem_append_left _ h
      · exact List.mem_append_right _ (List.mem_cons_of_mem _ h)
    obtain ⟨h1, h2⟩ := fmRelax_fold_inv (s.g node) (s.fm node) hnode edges
      { s with openList := l1 ++ l2, log := s.log ++ [(node, s.fm node)] } hinv'
    refine ⟨h1, ?_⟩
    intro p hp
    rw [h2] at hp
    simp only [List.mem_append, List.mem_singleton] at hp
    rcases hp with h | h
    · exact hlog p h
    · rw [h]
      exact hnode

/-- **C10.** In `FirstMoveSearcher::search`, for every expander and open
list satisfying their contracts (non-negative edge costs, edge ids < 63 at
the asserted start expansion, `next()` returning relaxed nodes), every
invocation of the `found` callback passes a non-zero first-move bitset. -/
theorem first_move_search_nonzero (start : Nat) (s : FMState)
    (h : FMReach start s) : ∀ p ∈ s.log, p.2 ≠ 0 :=
  (fmReach_inv h).2

/-- **C10 (witness).** A two-node search (one start edge with id 5, then the
successor is popped): the logged first-move set `1 << 5` is non-zero. -/
theorem first_move_search_nonzero_witness :
    ((1, (fmInit 0 [(1, 0, 5)]).fm 1) : Nat × Nat).2 ≠ 0 :=
  first_move_search_nonzero 0
    { (fmInit 0 [(1, 0, 5)]) with
        openList := [],
        log := (fmInit 0 [(1, 0, 5)]).log ++
          [(1, (fmInit 0 [(1, 0, 5)]).fm 1)] }
    (FMReach.step (FMReach.init [(1, 0, 5)] (by decide) (by decide))
      [] [] 1 rfl [] (by simp))
    (1, (fmInit 0 [(1, 0, 5)]).fm 1) (by simp)

/-- **C5 (witness).** A 60×1 grid with cell `(2, 0)` set, read from
`(-1, 0)` at bit 3. -/
theorem bitgrid_get_row_right_witness :
    ((applySets (BitGrid.new 60 1) [(2, 0, true)]).get_row_right (-1) 0).testBit 3 =
      (applySets (BitGrid.new 60 1) [(2, 0, true)]).get_unchecked (-1 + (3 : Nat)) 0 ∧
    ((applySets (BitGrid.new 60 1) [(2, 0, true)]).isPadding (-1 + (3 : Nat)) 0 →
      (applySets (BitGrid.new 60 1) [(2, 0, true)]).get_unchecked (-1 + (3 : Nat)) 0 =
        false) :=
  bitgrid_get_row_right 60 1 (by norm_num) (by norm_num) [(2, 0, true)]
    (by intro op hop; simp at hop; subst hop; norm_num)
    (-1) 0 3 (by norm_num) (by norm_num) (by norm_num) (by norm_num) (by norm_num)


theorem vecPop_concat (l : List Nat) (x : Nat) :
    vecPop (l ++ [x]) = some (x, l) := by
  simp [vecPop]

theorem vecPop_eq_none {l : List Nat} (h : vecPop l = none) : l = [] := by
  cases hrev : l.reverse with
  | nil => simpa using congrArg List.reverse hrev
  | cons a t => simp [vecPop, hrev] at h

theorem vecPop_eq_some {l : List Nat} {x : Nat} {l1 : List Nat}
    (h : vecPop l = some (x, l1)) : l = l1 ++ [x] := by
  cases hrev : l.reverse with
  | nil => simp [vecPop, hrev] at h
  | cons a t =>
    simp only [vecPop, hrev] at h
    obtain ⟨rfl, rfl⟩ := by simpa using h
    have := congrArg List.reverse hrev
    simpa using this

theorem backNonempty_cons_cons (a b : List Nat) (l : List (List Nat)) :
    backNonempty (a :: b :: l) = backNonempty (b :: l) := by
  rw [backNonempty, backNonempty, List.getLast?_cons_cons]

theorem bqMeasure_advance (s : BQState) (rest : List (List Nat))
    (h : s.queue = [] :: rest) :
    bqMeasure { s with
      queue := if backNonempty rest then rest ++ [[]] else rest,
      bucket_number := s.bucket_number + 1 } < bqMeasure s := by
  by_cases hb : backNonempty rest = true
  · have hbq2 : backNonempty (rest ++ [([] : List Nat)]) = false := by
      simp [backNonempty, List.getLast?_concat]
    have hbs : backNonempty ([] :: rest) = true := by
      cases rest with
      | nil => simp [backNonempty] at hb
      | cons a l => rw [backNonempty_cons_cons]; exact hb
    simp only [bqMeasure, h, hb, if_true, hbs, hbq2, if_false,
      Bool.false_eq_true, List.length_append, List.length_cons,
      List.length_singleton, List.length_nil]
    omega
  · have hbf : backNonempty rest = false := by simpa using hb
    have hbs2 : backNonempty ([] :: rest) = false := by
      cases rest with
      | nil => simp [backNonempty]
      | cons a l => rw [backNonempty_cons_cons]; exact hbf
    simp only [bqMeasure, h, hbf, hbs2, if_false, Bool.false_eq_true,
      List.length_cons]
    omega

theorem bqNextAux_congr :
    ∀ f1 f2 : Nat, ∀ s : BQState, bqMeasure s < f1 → bqMeasure s < f2 →
      bqNextAux f1 s = bqNextAux f2 s := by
  intro f1
  induction f1 with
  | zero => intro f2 s h1 _; omega
  | succ f ih =>
    intro f2 s h1 h2
    match f2, h2 with
    | f2 + 1, h2 =>
      cases hq : s.queue with
      | nil => rw [bqNextAux, bqNextAux, hq]
      | cons front rest =>
        cases hp : vecPop front with
        | some pr =>
          rw [bqNextAux, bqNextAux, hq]
          simp only [hp]
        | none =>
          have hfe : front = [] := vecPop_eq_none hp
          subst hfe
          have hlt := bqMeasure_advance s rest hq
          rw [bqNextAux, bqNextAux, hq]
          simp only [hp]
          exact ih f2 _ (by omega) (by omega)

theorem bqNextAux_nil (fuel : Nat) (s : BQState) (h : s.queue = []) :
    bqNextAux fuel s = (none, s) := by
  cases fuel with
  | zero => rfl
  | succ f => rw [bqNextAux, h]

theorem bqNextAux_pop (fuel : Nat) (s : BQState) (front : List Nat)
    (rest : List (List Nat)) (node : Nat) (front1 : List Nat)
    (hq : s.queue = front :: rest) (hp : vecPop front = some (node, front1)) :
    bqNextAux (fuel + 1) s = (some node, { s with queue := front1 :: rest }) := by
  rw [bqNextAux, hq]
  simp only [hp]

theorem bqNextAux_adv (fuel : Nat) (s : BQState) (rest : List (List Nat))
    (hq : s.queue = [] :: rest) :
    bqNextAux (fuel + 1) s = bqNextAux fuel { s with
      queue := if backNonempty rest then rest ++ [[]] else rest,
      bucket_number := s.bucket_number + 1 } := by
  rw [bqNextAux, hq]
  simp only [vecPop]
  rfl

theorem backNonempty_true {q : List (List Nat)} (h : backNonempty q = true) :
    ∃ v : List Nat, q[q.length - 1]? = some v ∧ v ≠ [] := by
  rw [backNonempty] at h
  cases hg : q.getLast? with
  | none => rw [hg] at h; simp at h
  | some v =>
    rw [hg] at h
    refine ⟨v, ?_, ?_⟩
    · rw [← List.getLast?_eq_getElem?]; exact hg
    · simp only [Bool.not_eq_true'] at h
      simpa using h

theorem BQInv_advance (width : ℚ) (S : Finset Nat) (s : BQState)
    (rest : List (List Nat))
    (hq : s.queue = [] :: rest) (hinv : BQInv width S s) :
    BQInv width S { s with
      queue := if backNonempty rest then rest ++ [[]] else rest,
      bucket_number := s.bucket_number + 1 } := by
  obtain ⟨hslot, hlen, hcard⟩ := hinv
  by_cases hb : backNonempty rest = true
  · refine ⟨?_, ?_, hcard⟩
    · intro i j v b hbi hbj
      simp only [hb, if_true] at hbi
      by_cases hi : i < rest.length
      · rw [List.getElem?_append_left hi] at hbi
        have hold := hslot (i + 1) j v b (by rw [hq, List.getElem?_cons_succ]; exact hbi) hbj
        have harith : s.bucket_number + (i + 1) = s.bucket_number + 1 + i := by omega
        rw [harith] at hold
        exact hold
      · rw [List.getElem?_append_right (by omega)] at hbi
        rcases Nat.eq_or_lt_of_le (Nat.le_of_not_lt hi) with he | hlt2
        · rw [← he, Nat.sub_self] at hbi
          simp only [List.getElem?_cons_zero, Option.some.injEq] at hbi
          subst hbi
          simp at hbj
        · have : [([] : List Nat)][i - rest.length]? = none := by
            apply List.getElem?_eq_none
            simp only [List.length_singleton]
            omega
          rw [this] at hbi
          cases hbi
    · obtain ⟨v, hv, hvne⟩ := backNonempty_true hb
      have hrne : rest ≠ [] := by
        intro h0
        rw [h0] at hv
        simp at hv
      have hrl : 1 ≤ rest.length := by
        cases rest with
        | nil => exact absurd rfl hrne
        | cons a l => simp
      have hve : v[0]? = some (v.headI) := by
        cases v with
        | nil => exact absurd rfl hvne
        | cons a l => simp
      have hocc := hslot (rest.length - 1 + 1) 0 v.headI v
        (by rw [hq, List.getElem?_cons_succ]; exact hv) hve
      have hbound := hocc.2.2.2
      simp only [hb, if_true, List.length_append, List.length_singleton]
      omega
  · have hbf : backNonempty rest = false := by simpa using hb
    refine ⟨?_, ?_, hcard⟩
    · intro i j v b hbi hbj
      simp only [hbf, Bool.false_eq_true, if_false] at hbi
      have hold := hslot (i + 1) j v b (by rw [hq, List.getElem?_cons_succ]; exact hbi) hbj
      have harith : s.bucket_number + (i + 1) = s.bucket_number + 1 + i := by omega
      rw [harith] at hold
      exact hold
    · simp only [hbf, Bool.false_eq_true, if_false]
      rw [hq] at hlen
      simp only [List.length_cons] at hlen
      omega

theorem bqNextAux_spec (width : ℚ) (S : Finset Nat) :
    ∀ fuel : Nat, ∀ s : BQState, bqMeasure s < fuel → BQInv width S s →
      BQInv width S (bqNextAux fuel s).2 ∧
      (bqNextAux fuel s).2.g = s.g ∧
      s.bucket_number ≤ (bqNextAux fuel s).2.bucket_number ∧
      (∀ v, (bqNextAux fuel s).1 = some v →
        ((s.g v / width).floor).toNat = (bqNextAux fuel s).2.bucket_number) := by
  intro fuel
  induction fuel with
  | zero => intro s h _; exact absurd h (Nat.not_lt_zero _)
  | succ f ih =>
    intro s h hinv
    obtain ⟨hslot, hlen, hcard⟩ := hinv
    cases hq : s.queue with
    | nil =>
      rw [bqNextAux_nil (f + 1) s hq]
      exact ⟨⟨hslot, hlen, hcard⟩, rfl, Nat.le_refl _, fun v hv => by cases hv⟩
    | cons front rest =>
      cases hp : vecPop front with
      | some pr =>
        obtain ⟨node, front1⟩ := pr
        rw [bqNextAux_pop f s front rest node front1 hq hp]
        have hfr : front = front1 ++ [node] := vecPop_eq_some hp
        refine ⟨⟨?_, ?_, hcard⟩, rfl, Nat.le_refl _, ?_⟩
        · intro i j v b hbi hbj
          cases i with
          | zero =>
            simp only [List.getElem?_cons_zero, Option.some.injEq] at hbi
            subst hbi
            have hjl : j < front1.length := by
              by_contra hc
              rw [List.getElem?_eq_none (Nat.le_of_not_lt hc)] at hbj
              cases hbj
            have : front[j]? = some v := by
              rw [hfr, List.getElem?_append_left hjl]; exact hbj
            exact hslot 0 j v front (by rw [hq]; simp) this
          | succ k =>
            exact hslot (k + 1) j v b (by rw [hq, List.getElem?_cons_succ]
                                          rw [List.getElem?_cons_succ] at hbi
                                          exact hbi) hbj
        · simpa using hlen.trans_eq' (by rw [hq]; simp)
        · intro v hv
          simp only [Option.some.injEq] at hv
          subst hv
          have hmem : front[front1.length]? = some node := by
            rw [hfr]
            exact List.getElem?_concat_length front1 node
          have := hslot 0 front1.length node front (by rw [hq]; simp) hmem
          simpa using this.2.2.1 trivial
      | none =>
        have hfe : front = [] := vecPop_eq_none hp
        subst hfe
        rw [bqNextAux_adv f s rest hq]
        have hmu := bqMeasure_advance s rest hq
        have hi1 := BQInv_advance width S s rest hq ⟨hslot, hlen, hcard⟩
        obtain ⟨ha, hb2, hc, hd⟩ := ih _ (by omega) hi1
        exact ⟨ha, hb2, Nat.le_trans (Nat.le_succ _) hc, hd⟩

theorem getElem?_some_lt {α : Type} {l : List α} {n : Nat} {a : α}
    (h : l[n]? = some a) : n < l.length := by
  by_contra hc
  rw [List.getElem?_eq_none_iff.2 (Nat.le_of_not_lt hc)] at h
  cases h

theorem BQSlotInv_gupd (width : ℚ) (S : Finset Nat) (s : BQState)
    (node : Nat) (gval : ℚ)
    (h : BQSlotInv width (fun _ => True) S s) :
    BQSlotInv width (fun v => v ≠ node) S
      { s with g := fun v => if v = node then gval else s.g v } := by
  intro i j v b hbi hbj
  obtain ⟨h0, h1, h2, h3⟩ := h i j v b hbi hbj
  refine ⟨h0, h1, ?_, h3⟩
  intro hv
  simpa [if_neg hv] using h2 trivial

/-- In a position-accurate queue over node universe `S`, each bucket's
occupants are pairwise distinct members of `S`, so its length is at most
`S.card`. -/
theorem bucket_len_le_card (width : ℚ) (ex : Nat → Prop) (S : Finset Nat)
    (s : BQState) (hslot : BQSlotInv width ex S s) (i : Nat) (b : List Nat)
    (hb : s.queue[i]? = some b) : b.length ≤ S.card := by
  have hnd : b.Nodup := by
    rw [List.nodup_iff_injective_get]
    rintro ⟨j1, h1⟩ ⟨j2, h2⟩ heq
    have e1 : b[j1]? = some (b.get ⟨j1, h1⟩) := List.getElem?_eq_getElem h1
    have e2 : b[j2]? = some (b.get ⟨j1, h1⟩) := by
      rw [heq]; exact List.getElem?_eq_getElem h2
    have c1 := (hslot i j1 _ b hb e1).2.1
    have c2 := (hslot i j2 _ b hb e2).2.1
    have := c1.symm.trans c2
    have hj : j1 = j2 := by
      have := congrArg Prod.snd this
      simpa using this
    exact Fin.ext hj
  have hsub : ∀ v ∈ b, v ∈ S := by
    intro v hv
    obtain ⟨j, hjl, hj⟩ := List.getElem_of_mem hv
    exact (hslot i j v b hb (by rw [List.getElem?_eq_getElem hjl, hj])).1
  calc b.length = b.toFinset.card := (List.toFinset_card_of_nodup hnd).symm
    _ ≤ S.card :=
      Finset.card_le_card (fun v hv => hsub v (List.mem_toFinset.1 hv))

theorem bq_removeOld_spec (width : ℚ) (S : Finset Nat) (s : BQState)
    (node : Nat)
    (hslot : BQSlotInv width (fun v => v ≠ node) S s)
    (hlen : s.bucket_number + s.queue.length ≤ 2 ^ 32) :
    ∀ s1, bq_removeOld s node = some s1 →
      BQSlotInv width (fun v => v ≠ node) S s1 ∧ notInQueue s1 node ∧
      s1.bucket_number = s.bucket_number ∧ s1.g = s.g ∧
      s1.queue.length = s.queue.length := by
  intro s1 h
  simp only [bq_removeOld] at h
  rcases hpos : s.bucket_pos node with ⟨bk, ix⟩
  rw [hpos] at h
  simp only at h
  by_cases hsent : bk = 2 ^ 32 - 1
  · rw [if_neg (by simp [hsent])] at h
    obtain rfl : s = s1 := by injection h
    refine ⟨hslot, ?_, rfl, rfl, rfl⟩
    intro i j b hbi hbj
    have hcl := hslot i j node b hbi hbj
    have hfst : bk = s.bucket_number + i := by
      have := congrArg Prod.fst (hpos.symm.trans hcl.2.1)
      simpa using this
    have := hcl.2.2.2
    omega
  · rw [if_pos (by simpa using hsent)] at h
    cases hqi : s.queue[if s.bucket_number ≤ bk then bk - s.bucket_number
        else bk + 2 ^ 32 - s.bucket_number]? with
    | none => rw [hqi] at h; cases h
    | some ob =>
      simp only [hqi] at h
      have hble : s.bucket_number ≤ bk := by
        by_contra hc
        have hge : s.queue.length ≤ (if s.bucket_number ≤ bk
            then bk - s.bucket_number else bk + 2 ^ 32 - s.bucket_number) := by
          rw [if_neg hc]
          omega
        rw [List.getElem?_eq_none_iff.2 hge] at hqi
        cases hqi
      rw [if_pos hble] at hqi h
      have hqlt : bk - s.bucket_number < s.queue.length := getElem?_some_lt hqi
      cases hpp : vecPop ob with
      | none =>
        simp only [hpp] at h
        injection h with h2
        subst h2
        have hoe : ob = [] := vecPop_eq_none hpp
        refine ⟨hslot, ?_, rfl, rfl, rfl⟩
        intro i j b hbi hbj
        have hcl := hslot i j node b hbi hbj
        have hfst : bk = s.bucket_number + i := by
          have := congrArg Prod.fst (hpos.symm.trans hcl.2.1)
          simpa using this
        have hieq : i = bk - s.bucket_number := by omega
        rw [hieq, hqi] at hbi
        obtain rfl : ob = b := by injection hbi
        rw [hoe] at hbj
        simp at hbj
      | some pr =>
        obtain ⟨sw, popped⟩ := pr
        simp only [hpp] at h
        have hob : ob = popped ++ [sw] := vecPop_eq_some hpp
        have hswslot := hslot (bk - s.bucket_number) popped.length sw ob hqi
          (by rw [hob]; exact List.getElem?_concat_length popped sw)
        have hswpos : s.bucket_pos sw =
            (s.bucket_number + (bk - s.bucket_number), popped.length) :=
          hswslot.2.1
        by_cases hswn : sw = node
        · rw [if_pos hswn] at h
          injection h with h2
          subst h2
          subst hswn
          have hixeq : ix = popped.length := by
            have := congrArg Prod.snd (hpos.symm.trans hswpos)
            simpa using this
          refine ⟨?_, ?_, rfl, rfl, by simp [List.length_set]⟩
          · intro i j v b hbi hbj
            simp only at hbi
            by_cases hii : i = bk - s.bucket_number
            · subst hii
              rw [List.getElem?_set_self hqlt] at hbi
              obtain rfl : popped = b := by injection hbi
              have hjl : j < popped.length := getElem?_some_lt hbj
              have : ob[j]? = some v := by
                rw [hob, List.getElem?_append_left hjl]
                exact hbj
              exact hslot (bk - s.bucket_number) j v ob hqi this
            · rw [List.getElem?_set_ne (fun hx => hii hx.symm)] at hbi
              exact hslot i j v b hbi hbj
          · intro i j b hbi hbj
            simp only at hbi
            by_cases hii : i = bk - s.bucket_number
            · subst hii
              rw [List.getElem?_set_self hqlt] at hbi
              obtain rfl : popped = b := by injection hbi
              have hjl : j < popped.length := getElem?_some_lt hbj
              have : ob[j]? = some sw := by
                rw [hob, List.getElem?_append_left hjl]
                exact hbj
              have hcl := hslot (bk - s.bucket_number) j sw ob hqi this
              have := hswpos.symm.trans hcl.2.1
              have hjx : popped.length = j := by
                have := congrArg Prod.snd this
                simpa using this
              omega
            · rw [List.getElem?_set_ne (fun hx => hii hx.symm)] at hbi
              have hcl := hslot i j sw b hbi hbj
              have := hswpos.symm.trans hcl.2.1
              have : i = bk - s.bucket_number := by
                have := congrArg Prod.fst this
                simp only at this
                omega
              exact hii this
        · rw [if_neg hswn] at h
          by_cases hixl : ix < popped.length
          · rw [if_pos hixl] at h
            injection h with h2
            subst h2
            have hswf : sw ≠ node := hswn
            refine ⟨?_, ?_, rfl, rfl, by simp [List.length_set]⟩
            · intro i j v b hbi hbj
              simp only at hbi ⊢
              by_cases hii : i = bk - s.bucket_number
              · subst hii
                rw [List.getElem?_set_self hqlt] at hbi
                obtain rfl : popped.set ix sw = b := by injection hbi
                by_cases hjx : j = ix
                · subst hjx
                  rw [List.getElem?_set_self (by simpa using hixl)] at hbj
                  obtain rfl : sw = v := by injection hbj
                  refine ⟨hswslot.1, by rw [if_pos rfl]; congr 1; omega, ?_,
                    hswslot.2.2.2⟩
                  intro _
                  exact hswslot.2.2.1 hswf
                · rw [List.getElem?_set_ne (fun hx => hjx hx.symm)] at hbj
                  have hjl : j < popped.length := by
                    have := getElem?_some_lt hbj
                    simpa using this
                  have hobj : ob[j]? = some v := by
                    rw [hob, List.getElem?_append_left hjl]
                    exact hbj
                  have hcl := hslot (bk - s.bucket_number) j v ob hqi hobj
                  have hvsw : v ≠ sw := by
                    intro hv
                    subst hv
                    have := hswpos.symm.trans hcl.2.1
                    have := congrArg Prod.snd this
                    simp only at this
                    omega
                  rw [if_neg hvsw]
                  exact hcl
              · rw [List.getElem?_set_ne (fun hx => hii hx.symm)] at hbi
                have hcl := hslot i j v b hbi hbj
                have hvsw : v ≠ sw := by
                  intro hv
                  subst hv
                  have := hswpos.symm.trans hcl.2.1
                  have := congrArg Prod.fst this
                  simp only at this
                  exact hii (by omega)
                rw [if_neg hvsw]
                exact hcl
            · intro i j b hbi hbj
              simp only at hbi
              by_cases hii : i = bk - s.bucket_number
              · subst hii
                rw [List.getElem?_set_self hqlt] at hbi
                obtain rfl : popped.set ix sw = b := by injection hbi
                by_cases hjx : j = ix
                · subst hjx
                  rw [List.getElem?_set_self (by simpa using hixl)] at hbj
                  exact hswn (by injection hbj)
                · rw [List.getElem?_set_ne (fun hx => hjx hx.symm)] at hbj
                  have hjl : j < popped.length := by
                    have := getElem?_some_lt hbj
                    simpa using this
                  have hobj : ob[j]? = some node := by
                    rw [hob, List.getElem?_append_left hjl]
                    exact hbj
                  have hcl := hslot (bk - s.bucket_number) j node ob hqi hobj
                  have := hpos.symm.trans hcl.2.1
                  have := congrArg Prod.snd this
                  simp only at this
                  exact hjx this.symm
              · rw [List.getElem?_set_ne (fun hx => hii hx.symm)] at hbi
                have hcl := hslot i j node b hbi hbj
                have := hpos.symm.trans hcl.2.1
                have := congrArg Prod.fst this
                simp only at this
                exact hii (by omega)
          · rw [if_neg hixl] at h
            cases h

theorem bq_insert_spec (width : ℚ) (S : Finset Nat) (s : BQState)
    (node : Nat) (nb : Nat)
    (hslot : BQSlotInv width (fun v => v ≠ node) S s)
    (hcard : S.card < 2 ^ 32) (hS : node ∈ S)
    (hlen : s.bucket_number + s.queue.length ≤ 2 ^ 32)
    (hnot : notInQueue s node)
    (hbn : s.bucket_number ≤ nb) (hnbM : nb < 2 ^ 32 - 1)
    (hfl : ((s.g node / width).floor).toNat = nb) :
    ∀ s1, bq_insert s node nb = some s1 →
      BQSlotInv width (fun _ => True) S s1 ∧
      s1.bucket_number + s1.queue.length ≤ 2 ^ 32 ∧
      s1.bucket_number = s.bucket_number ∧ s1.g = s.g := by
  intro s1 h
  simp only [bq_insert] at h
  rw [if_pos hbn] at h
  by_cases hres : s.queue.length ≤ nb - s.bucket_number
  · rw [if_pos hres] at h
    have hq1 : (s.queue ++
        List.replicate (nb - s.bucket_number + 1 - s.queue.length)
          ([] : List Nat))[nb - s.bucket_number]? = some [] := by
      rw [List.getElem?_append_right hres, List.getElem?_replicate]
      rw [if_pos (by omega)]
    simp only [hq1] at h
    injection h with h2
    subst h2
    have hlen1 : (s.queue ++
        List.replicate (nb - s.bucket_number + 1 - s.queue.length)
          ([] : List Nat)).length = nb - s.bucket_number + 1 := by
      simp only [List.length_append, List.length_replicate]
      omega
    refine ⟨?_, ?_, rfl, rfl⟩
    · intro i j v b hbi hbj
      dsimp only at hbi ⊢
      by_cases hii : i = nb - s.bucket_number
      · subst hii
        rw [List.getElem?_set_self (by rw [hlen1]; omega)] at hbi
        injection hbi with hbi2
        subst hbi2
        cases hbj2 : j with
        | zero =>
          rw [hbj2] at hbj
          simp only [List.nil_append, List.getElem?_cons_zero,
            Option.some.injEq] at hbj
          subst hbj
          refine ⟨hS, by rw [if_pos rfl]; simp; omega, fun _ => by
            rw [hfl]; omega, by omega⟩
        | succ k =>
          rw [hbj2] at hbj
          simp only [List.nil_append] at hbj
          rw [show ([node] : List Nat)[k + 1]? = none from rfl] at hbj
          cases hbj
      · rw [List.getElem?_set_ne (fun hx => hii hx.symm)] at hbi
        by_cases hil : i < s.queue.length
        · rw [List.getElem?_append_left hil] at hbi
          have hvn : v ≠ node := fun hv => hnot i j b hbi (hv ▸ hbj)
          obtain ⟨h0, h1, h2, h3⟩ := hslot i j v b hbi hbj
          exact ⟨h0, by rw [if_neg hvn]; exact h1, fun _ => h2 hvn, h3⟩
        · rw [List.getElem?_append_right (by omega), List.getElem?_replicate] at hbi
          by_cases hir : i - s.queue.length < nb - s.bucket_number + 1 - s.queue.length
          · rw [if_pos hir] at hbi
            injection hbi with hbi2
            subst hbi2
            simp at hbj
          · rw [if_neg hir] at hbi
            cases hbi
    · simp only [List.length_set, hlen1]
      omega
  · rw [if_neg hres] at h
    cases hv : s.queue[nb - s.bucket_number]? with
    | none =>
      rw [List.getElem?_eq_none_iff] at hv
      omega
    | some vec =>
      simp only [hv] at h
      injection h with h2
      subst h2
      have hvlen : vec.length < 2 ^ 32 :=
        lt_of_le_of_lt
          (bucket_len_le_card width _ S s hslot (nb - s.bucket_number) vec hv)
          hcard
      refine ⟨?_, ?_, rfl, rfl⟩
      · intro i j v b hbi hbj
        dsimp only at hbi ⊢
        by_cases hii : i = nb - s.bucket_number
        · subst hii
          rw [List.getElem?_set_self (by omega)] at hbi
          injection hbi with hbi2
          subst hbi2
          by_cases hjv : j < vec.length
          · rw [List.getElem?_append_left hjv] at hbj
            have hvn : v ≠ node := fun hvx =>
              hnot (nb - s.bucket_number) j vec hv (hvx ▸ hbj)
            obtain ⟨h0, h1, h2, h3⟩ := hslot (nb - s.bucket_number) j v vec hv hbj
            exact ⟨h0, by rw [if_neg hvn]; exact h1, fun _ => h2 hvn, h3⟩
          · have hjl : j < vec.length + 1 := by
              have := getElem?_some_lt hbj
              simpa using this
            have hje : j = vec.length := by omega
            subst hje
            rw [List.getElem?_concat_length] at hbj
            injection hbj with hbj2
            subst hbj2
            refine ⟨hS, by rw [if_pos rfl, Nat.mod_eq_of_lt hvlen]
                           congr 1; omega,
              fun _ => by rw [hfl]; omega, by omega⟩
        · rw [List.getElem?_set_ne (fun hx => hii hx.symm)] at hbi
          have hvn : v ≠ node := fun hvx => hnot i j b hbi (hvx ▸ hbj)
          obtain ⟨h0, h1, h2, h3⟩ := hslot i j v b hbi hbj
          exact ⟨h0, by rw [if_neg hvn]; exact h1, fun _ => h2 hvn, h3⟩
      · simp only [List.length_set]
        omega

theorem bq_relax_op_inv (width : ℚ) (S : Finset Nat) (s : BQState)
    (node : Nat) (gval : ℚ)
    (hinv : BQInv width S s) (hS : node ∈ S)
    (hbn : s.bucket_number ≤ ((gval / width).floor).toNat)
    (hlt : ((gval / width).floor).toNat < 2 ^ 32 - 1) :
    ∀ s1, bq_relax_op width s node gval = some s1 →
      BQInv width S s1 ∧ s1.bucket_number = s.bucket_number := by
  intro s1 h
  obtain ⟨hslot, hlen, hcard⟩ := hinv
  simp only [bq_relax_op, bq_relaxed, if_true] at h
  have hcast : castU32 (gval / width) = ((gval / width).floor).toNat := by
    rw [castU32]
    omega
  rw [hcast] at h
  have hslot2 : BQSlotInv width (fun v => v ≠ node) S
      { s with g := fun v => if v = node then gval else s.g v } :=
    BQSlotInv_gupd width S s node gval hslot
  by_cases heq : (s.bucket_pos node).1 = ((gval / width).floor).toNat
  · rw [if_pos heq] at h
    injection h with h2
    subst h2
    refine ⟨⟨?_, hlen, hcard⟩, rfl⟩
    intro i j v b hbi hbj
    simp only at hbi ⊢
    by_cases hvn : v = node
    · subst hvn
      obtain ⟨h0, h1, _, h3⟩ := hslot i j v b hbi hbj
      refine ⟨h0, h1, fun _ => ?_, h3⟩
      rw [if_pos rfl]
      have hfst : (s.bucket_pos v).1 = s.bucket_number + i := by
        rw [h1]
      rw [← heq, hfst]
    · obtain ⟨h0, h1, h2, h3⟩ := hslot2 i j v b hbi hbj
      exact ⟨h0, h1, fun _ => h2 hvn, h3⟩
  · rw [if_neg heq] at h
    cases hrm : bq_removeOld
        { s with g := fun v => if v = node then gval else s.g v } node with
    | none => rw [hrm] at h; cases h
    | some s2 =>
      rw [hrm] at h
      obtain ⟨hsl2, hnot2, hbn2, hg2, hql2⟩ :=
        bq_removeOld_spec width S _ node hslot2 hlen s2 hrm
      have hins := bq_insert_spec width S s2 node
        (((gval / width).floor).toNat)
        hsl2 hcard hS (by rw [hbn2, hql2]; exact hlen) hnot2
        (by rw [hbn2]; exact hbn) hlt
        (by rw [hg2]; dsimp only; rw [if_pos rfl]) s1 h
      obtain ⟨hs1, hl1, hb1, _⟩ := hins
      exact ⟨⟨hs1, hl1, hcard⟩, by rw [hb1, hbn2]⟩

theorem bq_next_spec (width : ℚ) (S : Finset Nat) (s : BQState)
    (hinv : BQInv width S s) :
    BQInv width S (bq_next s).2 ∧ (bq_next s).2.g = s.g ∧
    s.bucket_number ≤ (bq_next s).2.bucket_number ∧
    (∀ v, (bq_next s).1 = some v →
      ((s.g v / width).floor).toNat = (bq_next s).2.bucket_number) :=
  bqNextAux_spec width S (bqMeasure s + 1) s (Nat.lt_succ_self _) hinv

theorem chain'_cons_of_le {a b : Nat} {l : List Nat} (hab : a ≤ b)
    (h : List.Chain' (· ≤ ·) (b :: l)) : List.Chain' (· ≤ ·) (a :: l) := by
  cases l with
  | nil => simp
  | cons c l' =>
    rw [List.chain'_cons] at h ⊢
    exact ⟨hab.trans h.1, h.2⟩

theorem bq_run_chain (width : ℚ) (extra : ℚ → Prop) (S : Finset Nat)
    (hex : ∀ q, extra q → ((q / width).floor).toNat < 2 ^ 32 - 1) :
    ∀ ops : List BQOp, ∀ s : BQState, BQInv width S s →
      (∀ n gv, BQOp.relax n gv ∈ ops → n ∈ S) →
      bq_oblig width extra ops s →
      ∀ s2 : BQState, ∀ log : List Nat, bq_run width ops s = some (s2, log) →
        List.Chain' (· ≤ ·) (s.bucket_number :: log) := by
  intro ops
  induction ops with
  | nil =>
    intro s _ _ _ s2 log hrun
    rw [bq_run] at hrun
    injection hrun with h2
    rw [Prod.mk.injEq] at h2
    obtain ⟨rfl, rfl⟩ := h2
    simp
  | cons op rest ih =>
    intro s hinv hSub hob s2 log hrun
    cases op with
    | relax n gv =>
      rw [bq_run] at hrun
      obtain ⟨_, hbn, hext, hm⟩ := hob
      cases hr : bq_relax_op width s n gv with
      | none => rw [hr] at hrun; cases hrun
      | some s1 =>
        rw [hr] at hrun
        obtain ⟨hinv1, hbneq⟩ :=
          bq_relax_op_inv width S s n gv hinv
            (hSub n gv (List.mem_cons_self _ _)) hbn (hex gv hext) s1 hr
        rw [hr] at hm
        have := ih s1 hinv1
          (fun m gm hmem => hSub m gm (List.mem_cons_of_mem _ hmem))
          hm s2 log hrun
        rw [hbneq] at this
        exact this
    | next =>
      rw [bq_run] at hrun
      obtain ⟨hinv1, hgeq, hble, hpop⟩ := bq_next_spec width S s hinv
      cases hr2 : bq_run width rest (bq_next s).2 with
      | none => rw [hr2] at hrun; cases hrun
      | some pr =>
        obtain ⟨s3, log3⟩ := pr
        rw [hr2] at hrun
        have hch := ih (bq_next s).2 hinv1
          (fun m gm hmem => hSub m gm (List.mem_cons_of_mem _ hmem))
          hob s3 log3 hr2
        cases hp : (bq_next s).1 with
        | none =>
          rw [hp] at hrun
          injection hrun with h2
          rw [Prod.mk.injEq] at h2
          obtain ⟨rfl, rfl⟩ := h2
          exact chain'_cons_of_le hble hch
        | some v =>
          rw [hp] at hrun
          injection hrun with h2
          rw [Prod.mk.injEq] at h2
          obtain ⟨rfl, rfl⟩ := h2
          rw [hpop v hp]
          rw [List.chain'_cons]
          exact ⟨hble, hch⟩

theorem BQInv_init (width : ℚ) (S : Finset Nat) (hcard : S.card < 2 ^ 32) :
    BQInv width S bq_init := by
  refine ⟨?_, by simp [bq_init], hcard⟩
  intro i j v b hbi _
  simp [bq_init] at hbi

theorem mem_relaxedNodes {ops : List BQOp} {n : Nat} {gv : ℚ}
    (h : BQOp.relax n gv ∈ ops) : n ∈ relaxedNodes ops :=
  List.mem_filterMap.2 ⟨BQOp.relax n gv, h, rfl⟩

/-- **C7 (amended).** For every trace of `relaxed`/`next` operations from a
fresh bucket queue in which every relax supplies non-negative `g`, a bucket
id `floor(g / bucket_width)` not below the current front bucket number, and
— additionally — a bucket id below `u32::MAX` (the `bucket_pos` sentinel),
and which relaxes fewer than `2 ^ 32` distinct nodes (so the `u32` cast of
`bucket.len()` in the recorded slot index does not truncate), the sequence
of `floor(g / bucket_width)` values of the nodes returned by `next()`,
evaluated at the moment each is popped, is non-decreasing. -/
theorem bucket_queue_monotone (width : ℚ) (ops : List BQOp) (s2 : BQState)
    (log : List Nat)
    (hob : bq_oblig width
      (fun gv => ((gv / width).floor).toNat < 2 ^ 32 - 1) ops bq_init)
    (hcard : (relaxedNodes ops).toFinset.card < 2 ^ 32)
    (hrun : bq_run width ops bq_init = some (s2, log)) :
    List.Chain' (· ≤ ·) log :=
  (bq_run_chain width _ (relaxedNodes ops).toFinset (fun _ h => h) ops
    bq_init (BQInv_init width _ hcard)
    (fun _ _ hm => List.mem_toFinset.2 (mem_relaxedNodes hm))
    hob s2 log hrun).tail

theorem bq_wit_cast : castU32 ((1 : ℚ) / 1) = 1 := by
  rw [castU32]
  norm_num [Rat.floor_def', Int.toNat_ofNat]

theorem bq_wit_step1 : bq_relax_op 1 bq_init 0 1 = some wS1 := by
  rw [bq_relax_op, bq_relaxed]
  dsimp only
  rw [if_pos rfl]
  rw [bq_wit_cast]
  rw [if_neg (by rw [bq_init]; norm_num)]
  rw [show bq_removeOld
      { bq_init with g := fun v => if v = 0 then 1 else bq_init.g v } 0 =
      some { bq_init with g := fun v => if v = 0 then 1 else bq_init.g v } by
    rw [bq_removeOld]
    dsimp only
    rw [if_neg (by rw [bq_init]; norm_num)]]
  simp only [bq_insert]
  norm_num [bq_init, wS1, List.replicate]

theorem bq_wit_next : bq_next wS1 = (some 0, wS2) := rfl

theorem bq_wit_run :
    bq_run 1 [BQOp.relax 0 1, BQOp.next] bq_init = some (wS2, [1]) := by
  rw [bq_run, bq_wit_step1]
  simp only [bq_run, bq_wit_next]
  norm_num [wS1, bq_init, Rat.floor_def', Int.toNat_ofNat]

/-- **C7 (witness).** The trace `relax(0, g = 1); next()` at
`bucket_width = 1` satisfies the obligations (including the amended bound)
and pops node 0 from bucket 1, a monotone log. -/
theorem bucket_queue_monotone_witness :
    bq_oblig 1 (fun gv => ((gv / 1).floor).toNat < 2 ^ 32 - 1)
      [BQOp.relax 0 1, BQOp.next] bq_init ∧
    (relaxedNodes [BQOp.relax 0 1, BQOp.next]).toFinset.card < 2 ^ 32 ∧
    bq_run 1 [BQOp.relax 0 1, BQOp.next] bq_init = some (wS2, [1]) ∧
    List.Chain' (· ≤ ·) [1] := by
  have hob : bq_oblig 1 (fun gv => ((gv / 1).floor).toNat < 2 ^ 32 - 1)
      [BQOp.relax 0 1, BQOp.next] bq_init := by
    refine ⟨by norm_num, Nat.zero_le _,
      by norm_num [Rat.floor_def', Int.toNat_ofNat], ?_⟩
    rw [bq_wit_step1]
    exact trivial
  have hcard : (relaxedNodes [BQOp.relax 0 1, BQOp.next]).toFinset.card
      < 2 ^ 32 := by
    rw [show relaxedNodes [BQOp.relax 0 1, BQOp.next] = [0] from rfl]
    norm_num
  exact ⟨hob, hcard, bq_wit_run,
    bucket_queue_monotone 1 [BQOp.relax 0 1, BQOp.next] wS2 [1] hob hcard
      bq_wit_run⟩

theorem replicate_set (n i : Nat) (h : i < n) (x : List Nat) :
    (List.replicate n ([] : List Nat)).set i x =
      List.replicate i [] ++ x :: List.replicate (n - i - 1) [] := by
  rw [List.set_eq_take_append_cons_drop]
  rw [if_pos (by simpa using h)]
  rw [List.take_replicate, List.drop_replicate]
  rw [Nat.min_eq_left (by omega)]
  rfl

theorem bq_cex_cast : castU32 ((4294967295 : ℚ) / 1) = 4294967295 := by
  rw [castU32]
  have h1 : ((4294967295 : ℚ) / 1) = 4294967295 := by norm_num
  rw [h1, show ((4294967295 : ℚ)).floor = 4294967295 by
    rw [Rat.floor_def']
    norm_num]
  omega

theorem bq_cex_q2 :
    (([[], ([] : List Nat)] ++ List.replicate 4294967294 []).set 4294967295
      ([] ++ [0])) = List.replicate 4294967295 [] ++ [[0]] := by
  rw [List.set_append]
  rw [if_neg (by simp)]
  rw [show (4294967295 - [[], ([] : List Nat)].length) = 4294967293 from by simp]
  rw [List.nil_append]
  rw [replicate_set 4294967294 4294967293 (by norm_num)]
  rw [show (4294967294 - 4294967293 - 1) = 0 from by norm_num]
  rw [List.replicate_zero]
  rw [show (4294967295 : Nat) = 2 + 4294967293 from by norm_num]
  rw [List.replicate_add]
  rw [List.append_assoc]
  rfl

theorem bq_cex_ins2 : bq_insert bqCex2a 0 4294967295 = some bqCex2 := by
  rw [bq_insert.eq_def]
  dsimp only
  rw [show bqCex2a.bucket_number = 0 from rfl,
    show bqCex2a.queue = [[], []] from rfl]
  rw [if_pos (Nat.zero_le 4294967295)]
  rw [Nat.sub_zero]
  rw [if_pos (by simp)]
  rw [show (4294967295 + 1 - ([[], ([] : List Nat)]).length) = 4294967294
    from by simp]
  rw [List.getElem?_append_right (by simp)]
  rw [show (4294967295 - ([[], ([] : List Nat)]).length) = 4294967293
    from by simp]
  rw [List.getElem?_replicate]
  rw [if_pos (by norm_num)]
  dsimp only
  rw [bq_cex_q2]
  rfl

theorem bq_cex_step2 : bq_relax_op 1 wS1 0 4294967295 = some bqCex2 := by
  rw [bq_relax_op, bq_relaxed]
  dsimp only
  rw [if_pos rfl]
  rw [bq_cex_cast]
  rw [show wS1.bucket_pos 0 = (1, 0) from by rw [wS1]; rfl]
  rw [if_neg (by norm_num)]
  rw [show bq_removeOld { wS1 with g := fun v => if v = 0 then (4294967295 : ℚ) else wS1.g v } 0 = some bqCex2a from rfl]
  dsimp only
  exact bq_cex_ins2

theorem bq_cex_q3 :
    (List.replicate 4294967295 ([] : List Nat) ++ [[0]]).set 1 ([] ++ [0]) =
      [] :: [0] :: (List.replicate 4294967293 [] ++ [[0]]) := by
  rw [List.set_append]
  rw [if_pos (by rw [List.length_replicate]; norm_num)]
  rw [List.nil_append]
  rw [replicate_set 4294967295 1 (by norm_num)]
  rw [show (4294967295 - 1 - 1) = 4294967293 from by norm_num]
  rfl

theorem bq_cex_ins3 : bq_insert bqCex2b 0 1 = some bqCex3 := by
  rw [bq_insert.eq_def]
  dsimp only
  rw [show bqCex2b.bucket_number = 0 from rfl]
  rw [show bqCex2b.queue = List.replicate 4294967295 [] ++ [[0]] from rfl]
  rw [if_pos (Nat.zero_le 1), Nat.sub_zero]
  rw [if_neg (by rw [List.length_append, List.length_replicate]; norm_num)]
  rw [List.getElem?_append_left (by rw [List.length_replicate]; norm_num)]
  rw [List.getElem?_replicate, if_pos (by norm_num)]
  dsimp only
  rw [bq_cex_q3]
  rfl

theorem bq_cex_step3 : bq_relax_op 1 bqCex2 0 1 = some bqCex3 := by
  rw [bq_relax_op, bq_relaxed]
  dsimp only
  rw [show { bqCex2 with g := fun v => if v = 0 then (1 : ℚ) else bqCex2.g v } = bqCex2b from rfl]
  rw [if_pos rfl]
  rw [bq_wit_cast]
  rw [show bqCex2.bucket_pos 0 = (4294967295, 0) from rfl]
  rw [if_neg (by norm_num)]
  rw [show bq_removeOld bqCex2b 0 = some bqCex2b from rfl]
  dsimp only
  exact bq_cex_ins3

theorem bq_cex_cast2 : castU32 ((2 : ℚ) / 1) = 2 := by
  rw [castU32]
  have h1 : ((2 : ℚ) / 1) = 2 := by norm_num
  rw [h1, show ((2 : ℚ)).floor = 2 by
    rw [Rat.floor_def']
    norm_num]
  omega

theorem bq_cex_q4 :
    ([] :: [0] :: (List.replicate 4294967293 ([] : List Nat) ++ [[0]])).set 2
      ([] ++ [1]) =
      [] :: [0] :: [1] :: (List.replicate 4294967292 [] ++ [[0]]) := by
  rw [List.set_cons_succ, List.set_cons_succ]
  rw [List.set_append]
  rw [if_pos (by rw [List.length_replicate]; norm_num)]
  rw [List.nil_append]
  rw [replicate_set 4294967293 0 (by norm_num)]
  rw [show (4294967293 - 0 - 1) = 4294967292 from by norm_num]
  rfl

theorem bq_cex_ins4 : bq_insert bqCex3b 1 2 = some bqCex4 := by
  rw [bq_insert.eq_def]
  dsimp only
  rw [show bqCex3b.bucket_number = 0 from rfl]
  rw [show bqCex3b.queue =
    [] :: [0] :: (List.replicate 4294967293 [] ++ [[0]]) from rfl]
  rw [if_pos (Nat.zero_le 2), Nat.sub_zero]
  rw [if_neg (by rw [List.length_cons, List.length_cons, List.length_append,
    List.length_replicate]; norm_num)]
  rw [show ([] :: [0] :: (List.replicate 4294967293 ([] : List Nat) ++ [[0]]))
      = [[], [0]] ++ (List.replicate 4294967293 [] ++ [[0]]) from rfl]
  rw [List.getElem?_append_right (by simp)]
  rw [show (2 - ([[], ([0] : List Nat)]).length) = 0 from by simp]
  rw [List.getElem?_append_left (by rw [List.length_replicate]; norm_num)]
  rw [List.getElem?_replicate, if_pos (by norm_num)]
  dsimp only
  rw [show ([[], ([0] : List Nat)] ++
      (List.replicate 4294967293 [] ++ [[0]]))
      = [] :: [0] :: (List.replicate 4294967293 [] ++ [[0]]) from rfl]
  rw [bq_cex_q4]
  rfl

theorem bq_cex_step4 : bq_relax_op 1 bqCex3 1 2 = some bqCex4 := by
  rw [bq_relax_op, bq_relaxed]
  dsimp only
  rw [show { bqCex3 with g := fun v => if v = 1 then (2 : ℚ) else bqCex3.g v } = bqCex3b from rfl]
  rw [if_pos rfl]
  rw [bq_cex_cast2]
  rw [show bqCex3.bucket_pos 1 = (4294967295, 4294967295) from rfl]
  rw [if_neg (by norm_num)]
  rw [show bq_removeOld bqCex3b 1 = some bqCex3b from rfl]
  dsimp only
  exact bq_cex_ins4

theorem backNonempty_concat_ne (l : List (List Nat)) (x : List Nat)
    (h : x ≠ []) : backNonempty (l ++ [x]) = true := by
  rw [backNonempty, List.getLast?_concat]
  cases x with
  | nil => exact absurd rfl h
  | cons a t => rfl

theorem backNonempty_concat_nil (l : List (List Nat)) :
    backNonempty (l ++ [[]]) = false := by
  rw [backNonempty, List.getLast?_concat]
  rfl

theorem backNonempty_append_ne (l q : List (List Nat)) (h : q ≠ []) :
    backNonempty (l ++ q) = backNonempty q := by
  rw [backNonempty, backNonempty, List.getLast?_append]
  cases q with
  | nil => exact absurd rfl h
  | cons a t =>
    rw [List.getLast?_eq_getLast (a :: t) (by simp)]
    rfl

theorem bq_next_cons_pop (s : BQState) (x : Nat) (f1 : List Nat)
    (rest : List (List Nat)) (hq : s.queue = (f1 ++ [x]) :: rest) :
    bq_next s = (some x, { s with queue := f1 :: rest }) := by
  rw [bq_next]
  exact bqNextAux_pop (bqMeasure s) s (f1 ++ [x]) rest x f1 hq (vecPop_concat f1 x)

theorem bq_next_skip_empty (s : BQState) (rest : List (List Nat))
    (hq : s.queue = [] :: rest) :
    bq_next s = bq_next { s with
      queue := if backNonempty rest then rest ++ [[]] else rest,
      bucket_number := s.bucket_number + 1 } := by
  rw [bq_next, bq_next]
  rw [bqNextAux_adv (bqMeasure s) s rest hq]
  have h1 := bqMeasure_advance s rest hq
  exact bqNextAux_congr _ _ _ h1 (Nat.lt_succ_self _)

theorem bq_next_skip (k : Nat) :
    ∀ (bn : Nat) (g : Nat → ℚ) (p : Nat → Nat × Nat) (q : List (List Nat)),
      q ≠ [] → backNonempty q = false →
      bq_next ⟨bn, List.replicate k [] ++ q, g, p⟩ =
        bq_next ⟨bn + k, q, g, p⟩ := by
  induction k with
  | zero => intro bn g p q _ _; rfl
  | succ k ih =>
    intro bn g p q hne hb
    rw [bq_next_skip_empty ⟨bn, List.replicate (k + 1) [] ++ q, g, p⟩
      (List.replicate k [] ++ q) rfl]
    rw [backNonempty_append_ne _ _ hne, hb]
    rw [if_neg (by simp)]
    dsimp only
    rw [ih (bn + 1) g p q hne hb]
    rw [show bn + 1 + k = bn + (k + 1) from by omega]

theorem bq_cex_next1 : bq_next bqCex4 = (some 0, bqCex5) := by
  rw [bq_next_skip_empty bqCex4
    ([0] :: [1] :: (List.replicate 4294967292 [] ++ [[0]])) rfl]
  rw [show backNonempty ([0] :: [1] :: (List.replicate 4294967292 [] ++ [[0]]))
      = true from by
    rw [show ([0] :: [1] :: (List.replicate 4294967292 ([] : List Nat) ++ [[0]]))
        = (([0] :: [1] :: List.replicate 4294967292 []) ++ [[0]]) from by
      rw [List.cons_append, List.cons_append]]
    exact backNonempty_concat_ne _ _ (by simp)]
  rw [if_pos rfl]
  rw [bq_next_cons_pop _ 0 []
    (([1] :: (List.replicate 4294967292 [] ++ [[0]])) ++ [[]]) rfl]
  rfl

theorem bq_cex_next2 : bq_next bqCex5 = (some 1, bqCex6) := by
  rw [bq_next_skip_empty bqCex5
    (([1] :: (List.replicate 4294967292 [] ++ [[0]])) ++ [[]]) rfl]
  rw [backNonempty_concat_nil]
  rw [if_neg (by simp)]
  rw [bq_next_cons_pop _ 1 []
    ((List.replicate 4294967292 [] ++ [[0]]) ++ [[]]) rfl]
  rfl

theorem bq_cex_next3 : bq_next bqCex6 = (some 0, bqCex7) := by
  have hq6 : bqCex6 = ⟨2, List.replicate 4294967293 [] ++ [[0], []],
      bqCex4.g, bqCex4.bucket_pos⟩ := by
    have hlist : ([] : List Nat) ::
        ((List.replicate 4294967292 ([] : List Nat) ++ [[0]]) ++ [[]]) =
        List.replicate 4294967293 [] ++ [[0], []] := by
      rw [List.append_assoc]
      rw [show ([[0]] : List (List Nat)) ++ [[]] = [[0], []] from rfl]
      rw [show (4294967293 : Nat) = 1 + 4294967292 from by norm_num]
      rw [List.replicate_add]
      rw [List.append_assoc]
      rfl
    exact congrArg
      (fun q => BQState.mk 2 q bqCex4.g bqCex4.bucket_pos) hlist
  rw [hq6]
  rw [bq_next_skip 4294967293 2 bqCex4.g bqCex4.bucket_pos [[0], []]
    (by simp) rfl]
  rw [bq_next_cons_pop _ 0 [] [[]] rfl]
  rfl

theorem bq_run_relax_eq (width : ℚ) (ops : List BQOp) (s s1 : BQState)
    (n : Nat) (gv : ℚ) (res : Option (BQState × List Nat))
    (hx : bq_relax_op width s n gv = some s1)
    (hr : bq_run width ops s1 = res) :
    bq_run width (BQOp.relax n gv :: ops) s = res := by
  rw [bq_run, hx]
  exact hr

theorem bq_run_next_eq (width : ℚ) (ops : List BQOp) (s s1 s2 : BQState)
    (v : Nat) (log : List Nat)
    (hn : bq_next s = (some v, s1))
    (hr : bq_run width ops s1 = some (s2, log)) :
    bq_run width (BQOp.next :: ops) s =
      some (s2, ((s.g v / width).floor).toNat :: log) := by
  rw [bq_run, hn]
  dsimp only
  rw [hr]

theorem bq_oblig_relax_eq (width : ℚ) (extra : ℚ → Prop) (ops : List BQOp)
    (s s1 : BQState) (n : Nat) (gv : ℚ)
    (hx : bq_relax_op width s n gv = some s1)
    (h0 : 0 ≤ gv) (h1 : s.bucket_number ≤ ((gv / width).floor).toNat)
    (h2 : extra gv) (hrest : bq_oblig width extra ops s1) :
    bq_oblig width extra (BQOp.relax n gv :: ops) s := by
  refine ⟨h0, h1, h2, ?_⟩
  rw [hx]
  exact hrest

theorem bq_cex_val1 : ((bqCex4.g 0 / 1).floor).toNat = 1 := by
  rw [show bqCex4.g 0 = (1 : ℚ) from rfl]
  norm_num [Rat.floor_def']

theorem bq_cex_val2 : ((bqCex5.g 1 / 1).floor).toNat = 2 := by
  rw [show bqCex5.g 1 = (2 : ℚ) from rfl]
  rw [show ((2 : ℚ) / 1) = 2 from by norm_num]
  rw [show ((2 : ℚ)).floor = 2 from by rw [Rat.floor_def']; norm_num]
  omega

theorem bq_cex_val3 : ((bqCex6.g 0 / 1).floor).toNat = 1 := by
  rw [show bqCex6.g 0 = (1 : ℚ) from rfl]
  norm_num [Rat.floor_def']

theorem bq_cex_run : bq_run 1 bqCexOps bq_init = some (bqCex7, [1, 2, 1]) := by
  have h3 : bq_run 1 [BQOp.next] bqCex6 = some (bqCex7, [1]) := by
    have h := bq_run_next_eq 1 [] bqCex6 bqCex7 bqCex7 0 [] bq_cex_next3 rfl
    rw [bq_cex_val3] at h
    exact h
  have h2 : bq_run 1 [BQOp.next, BQOp.next] bqCex5 = some (bqCex7, [2, 1]) := by
    have h := bq_run_next_eq 1 [BQOp.next] bqCex5 bqCex6 bqCex7 1 [1]
      bq_cex_next2 h3
    rw [bq_cex_val2] at h
    exact h
  have h1 : bq_run 1 [BQOp.next, BQOp.next, BQOp.next] bqCex4 =
      some (bqCex7, [1, 2, 1]) := by
    have h := bq_run_next_eq 1 [BQOp.next, BQOp.next] bqCex4 bqCex5 bqCex7 0
      [2, 1] bq_cex_next1 h2
    rw [bq_cex_val1] at h
    exact h
  rw [bqCexOps]
  exact bq_run_relax_eq 1 _ bq_init wS1 0 1 _ bq_wit_step1
    (bq_run_relax_eq 1 _ wS1 bqCex2 0 4294967295 _ bq_cex_step2
      (bq_run_relax_eq 1 _ bqCex2 bqCex3 0 1 _ bq_cex_step3
        (bq_run_relax_eq 1 _ bqCex3 bqCex4 1 2 _ bq_cex_step4 h1)))

theorem bq_cex_oblig : bq_oblig 1 (fun _ => True) bqCexOps bq_init := by
  rw [bqCexOps]
  exact bq_oblig_relax_eq 1 _ _ bq_init wS1 0 1 bq_wit_step1
    (by norm_num) (Nat.zero_le _) trivial
    (bq_oblig_relax_eq 1 _ _ wS1 bqCex2 0 4294967295 bq_cex_step2
      (by norm_num) (Nat.zero_le _) trivial
      (bq_oblig_relax_eq 1 _ _ bqCex2 bqCex3 0 1 bq_cex_step3
        (by norm_num) (Nat.zero_le _) trivial
        (bq_oblig_relax_eq 1 _ _ bqCex3 bqCex4 1 2 bq_cex_step4
          (by norm_num) (Nat.zero_le _) trivial trivial)))

/-- **C7 (counterexample).** A trace satisfying the claim's stated caller
obligations (non-negative `g`, bucket id never below the front bucket
number) whose pops come out `[1, 2, 1]` — not monotone: relaxing a node to
bucket `floor(g / width) = u32::MAX` collides with the `bucket_pos`
sentinel, so a later relax skips removal and the node sits in the queue
twice. -/
theorem bucket_queue_monotone_cex :
    bq_oblig 1 (fun _ => True) bqCexOps bq_init ∧
    bq_run 1 bqCexOps bq_init = some (bqCex7, [1, 2, 1]) ∧
    ¬ List.Chain' (· ≤ ·) [1, 2, 1] :=
  ⟨bq_cex_oblig, bq_cex_run, by simp [List.chain'_cons]⟩

theorem adj3_cost : ∀ s : Nat, ∀ p : Nat × ℚ, p ∈ adj3 s → p.2 = 1 := by
  intro s p hp
  simp only [adj3] at hp
  split at hp
  · simp only [List.mem_singleton] at hp
    rw [hp]
  · split at hp
    · rcases List.mem_cons.1 hp with h | h
      · rw [h]
      · simp only [List.mem_singleton] at h
        rw [h]
    · split at hp
      · simp only [List.mem_singleton] at hp
        rw [hp]
      · cases hp

theorem dwalk_nonneg : ∀ s t : Nat, ∀ c : ℚ, DWalk adj3 s t c → 0 ≤ c := by
  intro s t c h
  induction h with
  | refl s => exact le_refl 0
  | step s t u cc c' hmem _ ih =>
    have hc : cc = 1 := adj3_cost s (t, cc) hmem
    rw [hc]
    linarith

theorem dwalk_to0 : ∀ s t : Nat, ∀ c : ℚ, DWalk adj3 s t c → t = 0 →
    (s = 1 → 1 ≤ c) ∧ (s = 2 → 2 ≤ c) := by
  intro s t c h
  induction h with
  | refl s =>
    intro ht
    subst ht
    exact ⟨fun h1 => absurd h1 (by norm_num),
      fun h2 => absurd h2 (by norm_num)⟩
  | step s t u cc c' hmem hw ih =>
    intro hu
    have hih := ih hu
    have hnn := dwalk_nonneg t u c' hw
    constructor
    · intro hs1
      subst hs1
      have hmem' : (t, cc) ∈ [((0 : Nat), (1 : ℚ)), (2, 1)] := hmem
      rcases List.mem_cons.1 hmem' with hpair | hpair
      · have ht : t = 0 := congrArg Prod.fst hpair
        have hc : cc = 1 := congrArg Prod.snd hpair
        rw [hc]
        linarith
      · simp only [List.mem_singleton] at hpair
        have ht : t = 2 := congrArg Prod.fst hpair
        have hc : cc = 1 := congrArg Prod.snd hpair
        have := hih.2 ht
        rw [hc]
        linarith
    · intro hs2
      subst hs2
      have hmem' : (t, cc) ∈ [((1 : Nat), (1 : ℚ))] := hmem
      simp only [List.mem_singleton] at hmem'
      have ht : t = 1 := congrArg Prod.fst hmem'
      have hc : cc = 1 := congrArg Prod.snd hmem'
      have := hih.1 ht
      rw [hc]
      linarith

theorem dwalk_2_to_0 : DWalk adj3 2 0 (1 + (1 + 0)) :=
  DWalk.step 2 1 0 1 (1 + 0) (List.Mem.head _)
    (DWalk.step 1 0 0 1 0 (List.Mem.head _) (DWalk.refl 0))

/-- **C8 (counterexample).** On the path graph 0 — 1 — 2 with a draw stream
that repeats id 0, the pivot selection picks `[0, 0]` for the single
component; pivot 1 does not maximise the minimum walk distance to pivot 0
(state 2, at distance 2, beats it), so it is not farthest-point sampling. -/
theorem differential_pivots_cex :
    calculate_pivots id [⟨0, 3⟩] 2 (fun _ => 0) = [[0, 0]] ∧
    ¬ FPSProperty adj3 (rangeIds ⟨0, 3⟩) [0, 0] := by
  constructor
  · rfl
  · intro h
    have hmd2 : minDistIs adj3 2 [0] 2 := by
      constructor
      · refine ⟨0, by simp, ?_⟩
        have := dwalk_2_to_0
        rwa [show (1 : ℚ) + (1 + 0) = 2 from by norm_num] at this
      · intro t ht c hc
        simp only [List.mem_singleton] at ht
        subst ht
        exact (dwalk_to0 2 0 c hc rfl).2 rfl
    have hmd0 : minDistIs adj3 0 [0] 0 := by
      constructor
      · exact ⟨0, by simp, DWalk.refl 0⟩
      · intro t ht c hc
        exact dwalk_nonneg 0 t c hc
    have h2 := h 1 (by norm_num) (by norm_num) 2
      (by rw [rangeIds]; simp) 2 0 hmd2 hmd0
    norm_num at h2

theorem calcPivotsAux_get (toState : Nat → Nat) (N : Nat)
    (draws : Nat → Nat) :
    ∀ comps : List IdRange, ∀ base c : Nat, ∀ r : IdRange,
      comps[c]? = some r →
      (calcPivotsAux toState N draws comps base)[c]? =
        some ((List.range N).map
          fun i => toState (genRange r (draws (base + c * N + i)))) := by
  intro comps
  induction comps with
  | nil => intro base c r hr; cases hr
  | cons r0 rest ih =>
    intro base c r hr
    cases c with
    | zero =>
      simp only [List.getElem?_cons_zero, Option.some.injEq] at hr
      subst hr
      rw [calcPivotsAux]
      simp only [List.getElem?_cons_zero, calcPivotsComp, Option.some.injEq]
      apply List.map_congr_left
      intro i _
      rw [show base + 0 * N + i = base + i from by ring]
    | succ c' =>
      rw [List.getElem?_cons_succ] at hr
      rw [calcPivotsAux, List.getElem?_cons_succ]
      rw [ih (base + N) c' r hr]
      congr 1
      apply List.map_congr_left
      intro i _
      rw [show base + N + c' * N + i = base + (c' + 1) * N + i from by ring]

theorem genRange_mem (r : IdRange) (draw : Nat) (h : 0 < r.len) :
    genRange r draw ∈ rangeIds r := by
  rw [rangeIds, genRange]
  refine List.mem_map.2 ⟨draw % r.len, List.mem_range.2 (Nat.mod_lt _ h), rfl⟩

theorem calcPivotsAux_length (toState : Nat → Nat) (N : Nat)
    (draws : Nat → Nat) :
    ∀ comps : List IdRange, ∀ base : Nat,
      (calcPivotsAux toState N draws comps base).length = comps.length := by
  intro comps
  induction comps with
  | nil => intro base; rfl
  | cons r0 rest ih =>
    intro base
    rw [calcPivotsAux, List.length_cons, List.length_cons, ih]

theorem dwalk_nonneg_of (adj : Nat → List (Nat × ℚ))
    (hnn : NonnegCosts adj) :
    ∀ s t : Nat, ∀ c : ℚ, DWalk adj s t c → 0 ≤ c := by
  intro s t c h
  induction h with
  | refl s => exact le_refl 0
  | step s t u cc c' hmem _ ih =>
    have := hnn s (t, cc) hmem
    have : (0 : ℚ) ≤ cc := this
    linarith

theorem dwalk_snoc (adj : Nat → List (Nat × ℚ)) :
    ∀ a b : Nat, ∀ c1 : ℚ, DWalk adj a b c1 →
      ∀ t : Nat, ∀ c2 : ℚ, (t, c2) ∈ adj b → DWalk adj a t (c1 + c2) := by
  intro a b c1 h
  induction h with
  | refl s =>
    intro t c2 hm
    have := DWalk.step s t t c2 0 hm (DWalk.refl t)
    rw [zero_add]
    simpa using this
  | step s t u cc c' hmem _ ih =>
    intro x c2 hm
    have hx := ih x c2 hm
    have := DWalk.step s t x cc (c' + c2) hmem hx
    rw [add_assoc]
    exact this

theorem dij_frontier (adj : Nat → List (Nat × ℚ)) (src : Nat)
    (hnn : NonnegCosts adj) (s : DijkState) (hinv : DijkInv adj src s) :
    ∀ a v : Nat, ∀ c : ℚ, DWalk adj a v c →
      ∀ qa : ℚ, s.data a = some qa → s.data v = none →
      ∃ y ∈ s.opn, ∃ gy, s.g y = some gy ∧ gy ≤ qa + c := by
  obtain ⟨h1, h2, h3, h4, h5, h6, h8⟩ := hinv
  intro a v c hw
  induction hw with
  | refl x =>
    intro qa ha hv
    rw [ha] at hv
    cases hv
  | step x t u cc c' hmem hw ih =>
    intro qa ha hu
    obtain ⟨y0, hy0, hle0⟩ := h3 x qa ha (t, cc) hmem
    cases ht : s.data t with
    | some qt =>
      have hgt := h6 t qt ht
      have hqt : qt ≤ qa + cc := by
        rw [hgt] at hy0
        injection hy0 with hinj
        rw [hinj]
        exact hle0
      obtain ⟨y, hyopn, gy, hgy, hgyle⟩ := ih qt ht hu
      exact ⟨y, hyopn, gy, hgy, by linarith⟩
    | none =>
      have htopn : t ∈ s.opn := h5 t y0 hy0 ht
      have hc' : (0 : ℚ) ≤ c' := dwalk_nonneg_of adj hnn t u c' hw
      exact ⟨t, htopn, y0, hy0, by linarith⟩

theorem dij_opt (adj : Nat → List (Nat × ℚ)) (src : Nat)
    (hnn : NonnegCosts adj) (s : DijkState) (hinv : DijkInv adj src s) :
    ∀ v : Nat, ∀ c : ℚ, DWalk adj src v c → s.data v = none →
      ∃ y ∈ s.opn, ∃ gy, s.g y = some gy ∧ gy ≤ c := by
  intro v c hw hv
  obtain ⟨h1, h2, h3, h4, h5, h6, h8⟩ := hinv
  cases hsrc : s.data src with
  | none =>
    exact ⟨src, h5 src 0 h8 hsrc, 0, h8, dwalk_nonneg_of adj hnn src v c hw⟩
  | some q0 =>
    have hg0 := h6 src q0 hsrc
    have hq0 : q0 = 0 := by
      rw [h8] at hg0
      injection hg0 with hinj
      exact hinj.symm
    obtain ⟨y, hy, gy, hgy, hle⟩ :=
      dij_frontier adj src hnn s ⟨h1, h2, h3, h4, h5, h6, h8⟩ src v c hw
        q0 hsrc hv
    refine ⟨y, hy, gy, hgy, ?_⟩
    rw [hq0] at hle
    linarith

theorem djRelaxEdge_spec (adj : Nat → List (Nat × ℚ)) (src node : Nat)
    (gn : ℚ) (hnn : NonnegCosts adj) (s : DijkState) (e : Nat × ℚ)
    (he : e ∈ adj node) (hdist : IsDist adj src node gn)
    (hmid : DijkMid adj src node gn s) :
    DijkMid adj src node gn (djRelaxEdge gn s e) ∧
    (∃ y, (djRelaxEdge gn s e).g e.1 = some y ∧ y ≤ gn + e.2) ∧
    (∀ v q, s.g v = some q →
      ∃ q', (djRelaxEdge gn s e).g v = some q' ∧ q' ≤ q) ∧
    (djRelaxEdge gn s e).data = s.data ∧
    (∀ v ∈ s.opn, v ∈ (djRelaxEdge gn s e).opn) := by
  obtain ⟨h1, h2, h3, h4, h5, h6, h8, h9⟩ := hmid
  have hwnode : DWalk adj src node gn := hdist.1
  have hnew : DWalk adj src e.1 (gn + e.2) :=
    dwalk_snoc adj src node gn hwnode e.1 e.2 (by simpa using he)
  have hce : (0 : ℚ) ≤ e.2 := hnn node e he
  have hgn : (0 : ℚ) ≤ gn := dwalk_nonneg_of adj hnn src node gn hwnode
  cases hge : s.g e.1 with
  | none =>
    have hred : djRelaxEdge gn s e =
        { s with
          g := fun v => if v = e.1 then some (gn + e.2) else s.g v,
          opn := if e.1 ∈ s.opn then s.opn else e.1 :: s.opn } := by
      rw [djRelaxEdge, hge]
    have hnset : s.data e.1 = none := by
      cases hd : s.data e.1 with
      | none => rfl
      | some q =>
        have := h6 e.1 q hd
        rw [hge] at this
        cases this
    have hsne : src ≠ e.1 := by
      intro hx
      rw [← hx, h8] at hge
      cases hge
    rw [hred]
    refine ⟨⟨?_, h2, ?_, ?_, ?_, ?_, ?_, h9⟩, ?_, ?_, rfl, ?_⟩
    · intro v q hq
      dsimp only at hq
      by_cases hv : v = e.1
      · subst hv
        rw [if_pos rfl] at hq
        injection hq with hinj
        rw [← hinj]
        exact hnew
      · rw [if_neg hv] at hq
        exact h1 v q hq
    · intro v q hd hvn p hp
      obtain ⟨y, hy, hle⟩ := h3 v q hd hvn p hp
      dsimp only
      by_cases hp1 : p.1 = e.1
      · rw [hp1, hge] at hy
        cases hy
      · rw [if_neg hp1]
        exact ⟨y, hy, hle⟩
    · intro v hv
      dsimp only at hv ⊢
      by_cases hv1 : v = e.1
      · subst hv1
        exact ⟨gn + e.2, by rw [if_pos rfl]⟩
      · rw [if_neg hv1]
        apply h4
        by_cases hin : e.1 ∈ s.opn
        · rw [if_pos hin] at hv
          exact hv
        · rw [if_neg hin] at hv
          rcases List.mem_cons.1 hv with hx | hx
          · exact absurd hx hv1
          · exact hx
    · intro v q hq hd
      dsimp only at hq ⊢
      by_cases hv1 : v = e.1
      · subst hv1
        by_cases hin : e.1 ∈ s.opn
        · rw [if_pos hin]
          exact hin
        · rw [if_neg hin]
          exact List.mem_cons_self _ _
      · rw [if_neg hv1] at hq
        have := h5 v q hq hd
        by_cases hin : e.1 ∈ s.opn
        · rw [if_pos hin]
          exact this
        · rw [if_neg hin]
          exact List.mem_cons_of_mem _ this
    · intro v q hd
      dsimp only
      by_cases hv1 : v = e.1
      · subst hv1
        rw [hd] at hnset
        cases hnset
      · rw [if_neg hv1]
        exact h6 v q hd
    · dsimp only
      rw [if_neg hsne]
      exact h8
    · exact ⟨gn + e.2, by dsimp only; rw [if_pos rfl], le_refl _⟩
    · intro v q hq
      dsimp only
      by_cases hv1 : v = e.1
      · subst hv1
        rw [hge] at hq
        cases hq
      · rw [if_neg hv1]
        exact ⟨q, hq, le_refl q⟩
    · intro v hv
      dsimp only
      by_cases hin : e.1 ∈ s.opn
      · rw [if_pos hin]
        exact hv
      · rw [if_neg hin]
        exact List.mem_cons_of_mem _ hv
  | some gt =>
    by_cases hlt : gn + e.2 < gt
    · have hred : djRelaxEdge gn s e =
          { s with
            g := fun v => if v = e.1 then some (gn + e.2) else s.g v,
            opn := if e.1 ∈ s.opn then s.opn else e.1 :: s.opn } := by
        rw [djRelaxEdge, hge]
        dsimp only
        rw [if_pos hlt]
      have hnset : s.data e.1 = none := by
        cases hd : s.data e.1 with
        | none => rfl
        | some q =>
          exfalso
          have hgq := h6 e.1 q hd
          rw [hge] at hgq
          injection hgq with hinj
          have hopt := (h2 e.1 q hd).2 (gn + e.2) hnew
          rw [← hinj] at hopt
          linarith
      have hsne : src ≠ e.1 := by
        intro hx
        rw [← hx, h8] at hge
        injection hge with hinj
        rw [← hinj] at hlt
        linarith
      rw [hred]
      refine ⟨⟨?_, h2, ?_, ?_, ?_, ?_, ?_, h9⟩, ?_, ?_, rfl, ?_⟩
      · intro v q hq
        dsimp only at hq
        by_cases hv : v = e.1
        · subst hv
          rw [if_pos rfl] at hq
          injection hq with hinj
          rw [← hinj]
          exact hnew
        · rw [if_neg hv] at hq
          exact h1 v q hq
      · intro v q hd hvn p hp
        obtain ⟨y, hy, hle⟩ := h3 v q hd hvn p hp
        dsimp only
        by_cases hp1 : p.1 = e.1
        · rw [hp1] at hy
          rw [hge] at hy
          injection hy with hinj
          refine ⟨gn + e.2, by rw [if_pos hp1], ?_⟩
          rw [← hinj] at hle
          linarith
        · rw [if_neg hp1]
          exact ⟨y, hy, hle⟩
      · intro v hv
        dsimp only at hv ⊢
        by_cases hv1 : v = e.1
        · subst hv1
          exact ⟨gn + e.2, by rw [if_pos rfl]⟩
        · rw [if_neg hv1]
          apply h4
          by_cases hin : e.1 ∈ s.opn
          · rw [if_pos hin] at hv
            exact hv
          · rw [if_neg hin] at hv
            rcases List.mem_cons.1 hv with hx | hx
            · exact absurd hx hv1
            · exact hx
      · intro v q hq hd
        dsimp only at hq ⊢
        by_cases hv1 : v = e.1
        · subst hv1
          by_cases hin : e.1 ∈ s.opn
          · rw [if_pos hin]
            exact hin
          · rw [if_neg hin]
            exact List.mem_cons_self _ _
        · rw [if_neg hv1] at hq
          have := h5 v q hq hd
          by_cases hin : e.1 ∈ s.opn
          · rw [if_pos hin]
            exact this
          · rw [if_neg hin]
            exact List.mem_cons_of_mem _ this
      · intro v q hd
        dsimp only
        by_cases hv1 : v = e.1
        · subst hv1
          rw [hd] at hnset
          cases hnset
        · rw [if_neg hv1]
          exact h6 v q hd
      · dsimp only
        rw [if_neg hsne]
        exact h8
      · exact ⟨gn + e.2, by dsimp only; rw [if_pos rfl], le_refl _⟩
      · intro v q hq
        dsimp only
        by_cases hv1 : v = e.1
        · subst hv1
          rw [hge] at hq
          injection hq with hinj
          refine ⟨gn + e.2, by rw [if_pos rfl], ?_⟩
          rw [← hinj]
          exact le_of_lt hlt
        · rw [if_neg hv1]
          exact ⟨q, hq, le_refl q⟩
      · intro v hv
        dsimp only
        by_cases hin : e.1 ∈ s.opn
        · rw [if_pos hin]
          exact hv
        · rw [if_neg hin]
          exact List.mem_cons_of_mem _ hv
    · have hred : djRelaxEdge gn s e = s := by
        rw [djRelaxEdge, hge]
        dsimp only
        rw [if_neg hlt]
      rw [hred]
      refine ⟨⟨h1, h2, h3, h4, h5, h6, h8, h9⟩, ?_,
        fun v q hq => ⟨q, hq, le_refl q⟩, rfl, fun v hv => hv⟩
      exact ⟨gt, hge, le_of_not_lt hlt⟩

theorem djRelaxFold_spec (adj : Nat → List (Nat × ℚ)) (src node : Nat)
    (gn : ℚ) (hnn : NonnegCosts adj) (hdist : IsDist adj src node gn) :
    ∀ el : List (Nat × ℚ), (∀ e ∈ el, e ∈ adj node) →
    ∀ s : DijkState, DijkMid adj src node gn s →
      DijkMid adj src node gn (el.foldl (djRelaxEdge gn) s) ∧
      (∀ e ∈ el, ∃ y, (el.foldl (djRelaxEdge gn) s).g e.1 = some y ∧
        y ≤ gn + e.2) ∧
      (∀ v q, s.g v = some q →
        ∃ q', (el.foldl (djRelaxEdge gn) s).g v = some q' ∧ q' ≤ q) ∧
      (el.foldl (djRelaxEdge gn) s).data = s.data ∧
      (∀ v ∈ s.opn, v ∈ (el.foldl (djRelaxEdge gn) s).opn) := by
  intro el
  induction el with
  | nil =>
    intro _ s hmid
    exact ⟨hmid, by simp, fun v q hq => ⟨q, hq, le_refl q⟩, rfl,
      fun v hv => hv⟩
  | cons e rest ih =>
    intro hel s hmid
    obtain ⟨hm1, hrel1, hdec1, hdata1, hopn1⟩ :=
      djRelaxEdge_spec adj src node gn hnn s e
        (hel e (List.mem_cons_self _ _)) hdist hmid
    obtain ⟨hm2, hrel2, hdec2, hdata2, hopn2⟩ :=
      ih (fun x hx => hel x (List.mem_cons_of_mem _ hx))
        (djRelaxEdge gn s e) hm1
    rw [List.foldl_cons]
    refine ⟨hm2, ?_, ?_, hdata2.trans hdata1, fun v hv => hopn2 v (hopn1 v hv)⟩
    · intro x hx
      rcases List.mem_cons.1 hx with rfl | hx2
      · obtain ⟨y, hy, hle⟩ := hrel1
        obtain ⟨y', hy', hle'⟩ := hdec2 x.1 y hy
        exact ⟨y', hy', hle'.trans hle⟩
      · exact hrel2 x hx2
    · intro v q hq
      obtain ⟨q1, hq1, hle1⟩ := hdec1 v q hq
      obtain ⟨q2, hq2, hle2⟩ := hdec2 v q1 hq1
      exact ⟨q2, hq2, hle2.trans hle1⟩

theorem DijkInv_init (adj : Nat → List (Nat × ℚ)) (src : Nat) :
    DijkInv adj src (djInit src) := by
  refine ⟨?_, ?_, ?_, ?_, ?_, ?_, ?_⟩
  · intro v q hq
    dsimp only [djInit] at hq
    by_cases hv : v = src
    · subst hv
      rw [if_pos rfl] at hq
      injection hq with hinj
      rw [← hinj]
      exact DWalk.refl _
    · rw [if_neg hv] at hq
      cases hq
  · intro v q hq
    dsimp only [djInit] at hq
    cases hq
  · intro v q hq
    dsimp only [djInit] at hq
    cases hq
  · intro v hv
    dsimp only [djInit] at hv ⊢
    rcases List.mem_singleton.1 hv with rfl
    exact ⟨0, by rw [if_pos rfl]⟩
  · intro v q hq _
    dsimp only [djInit] at hq ⊢
    by_cases hv : v = src
    · subst hv
      exact List.mem_singleton.2 rfl
    · rw [if_neg hv] at hq
      cases hq
  · intro v q hq
    dsimp only [djInit] at hq
    cases hq
  · dsimp only [djInit]
    rw [if_pos rfl]

theorem DijkReach_inv (adj : Nat → List (Nat × ℚ)) (src : Nat)
    (hnn : NonnegCosts adj) :
    ∀ s : DijkState, DijkReach adj src s → DijkInv adj src s := by
  intro s h
  induction h with
  | init => exact DijkInv_init adj src
  | step s node gn hreach hopn hg hmin ih =>
    obtain ⟨h1, h2, h3, h4, h5, h6, h8⟩ := ih
    have hdist : IsDist adj src node gn := by
      refine ⟨h1 node gn hg, ?_⟩
      intro c hw
      cases hd : s.data node with
      | some q =>
        have hgq := h6 node q hd
        rw [hg] at hgq
        injection hgq with hinj
        rw [hinj]
        exact (h2 node q hd).2 c hw
      | none =>
        obtain ⟨y, hy, gy, hgy, hle⟩ :=
          dij_opt adj src hnn s ⟨h1, h2, h3, h4, h5, h6, h8⟩ node c hw hd
        exact (hmin y hy gy hgy).trans hle
    have hmid : DijkMid adj src node gn
        { s with
          opn := s.opn.erase node,
          data := fun v => if v = node then some gn else s.data v } := by
      refine ⟨h1, ?_, ?_, ?_, ?_, ?_, h8, ?_⟩
      · intro v q hd
        dsimp only at hd
        by_cases hvn : v = node
        · subst hvn
          rw [if_pos rfl] at hd
          injection hd with hinj
          rw [← hinj]
          exact hdist
        · rw [if_neg hvn] at hd
          exact h2 v q hd
      · intro v q hd hvn p hp
        dsimp only at hd
        rw [if_neg hvn] at hd
        exact h3 v q hd p hp
      · intro v hv
        dsimp only at hv
        exact h4 v (List.mem_of_mem_erase hv)
      · intro v q hq hd
        dsimp only at hd ⊢
        by_cases hvn : v = node
        · subst hvn
          rw [if_pos rfl] at hd
          cases hd
        · rw [if_neg hvn] at hd
          exact List.mem_erase_of_ne hvn |>.2 (h5 v q hq hd)
      · intro v q hd
        dsimp only at hd
        by_cases hvn : v = node
        · subst hvn
          rw [if_pos rfl] at hd
          injection hd with hinj
          rw [← hinj]
          exact hg
        · rw [if_neg hvn] at hd
          exact h6 v q hd
      · dsimp only
        rw [if_pos rfl]
    obtain ⟨hm, hrel, _, hdata, _⟩ :=
      djRelaxFold_spec adj src node gn hnn hdist (adj node)
        (fun _ hx => hx)
        { s with
          opn := s.opn.erase node,
          data := fun v => if v = node then some gn else s.data v } hmid
    obtain ⟨g1, g2, g3, g4, g5, g6, g8, g9⟩ := hm
    refine ⟨g1, g2, ?_, g4, g5, g6, g8⟩
    intro v q hd p hp
    by_cases hvn : v = node
    · subst hvn
      have hq : q = gn := by
        rw [hd] at g9
        exact Option.some.inj g9
      obtain ⟨y, hy, hle⟩ := hrel p hp
      exact ⟨y, hy, by rw [hq]; exact hle⟩
    · exact g3 v q hd hvn p hp

/-- At termination (`queue.next()` returned `None`, i.e. the open list is
empty) the stored column is exactly the distances from the pivot: every
stored entry is the minimum walk cost from `src`, and every state reachable
by a walk from `src` has an entry stored. -/
theorem dijkstra_terminal (adj : Nat → List (Nat × ℚ)) (src : Nat)
    (hnn : NonnegCosts adj) (s : DijkState)
    (hreach : DijkReach adj src s) (hterm : s.opn = []) :
    (∀ v q, s.data v = some q → IsDist adj src v q) ∧
    (∀ v : Nat, ∀ c : ℚ, DWalk adj src v c →
      ∃ q, s.data v = some q ∧ IsDist adj src v q) := by
  have hinv := DijkReach_inv adj src hnn s hreach
  obtain ⟨h1, h2, h3, h4, h5, h6, h8⟩ := hinv
  refine ⟨h2, ?_⟩
  intro v c hw
  cases hd : s.data v with
  | some q => exact ⟨q, rfl, h2 v q hd⟩
  | none =>
    obtain ⟨y, hy, _⟩ :=
      dij_opt adj src hnn s ⟨h1, h2, h3, h4, h5, h6, h8⟩ v c hw hd
    rw [hterm] at hy
    cases hy

/-- **C8 (amended).** `DifferentialHeuristic::calculate` draws every pivot —
`i = 0` and `i ≥ 1` alike — via `rng.gen_range` over the component's id
range: per component the pivot list is exactly `to_state` applied to the
drawn ids, each of which lies in the component's id range; no
farthest-point sampling is performed.  It then runs Dijkstra from each
pivot (differential.rs:48-64): when a run from a pivot `p` drains its
queue, the column it stored holds exactly the distances from `p` — every
stored entry is the minimum walk cost, and every state reachable from `p`
by a walk has its distance stored. -/
theorem differential_pivot_selection (toState : Nat → Nat)
    (comps : List IdRange) (N : Nat) (draws : Nat → Nat)
    (hlen : ∀ r ∈ comps, 0 < r.len) :
    (calculate_pivots toState comps N draws).length = comps.length ∧
    (∀ c : Nat, ∀ r : IdRange, comps[c]? = some r →
      (calculate_pivots toState comps N draws)[c]? =
        some ((List.range N).map
          fun i => toState (genRange r (draws (c * N + i))))) ∧
    (∀ c : Nat, ∀ r : IdRange, ∀ pv : List Nat, comps[c]? = some r →
      (calculate_pivots toState comps N draws)[c]? = some pv →
      ∀ p ∈ pv, ∃ idx, idx ∈ rangeIds r ∧ p = toState idx) ∧
    (∀ c : Nat, ∀ pv : List Nat,
      (calculate_pivots toState comps N draws)[c]? = some pv →
      ∀ p ∈ pv, ∀ adj : Nat → List (Nat × ℚ), NonnegCosts adj →
        ∀ s : DijkState, DijkReach adj p s → s.opn = [] →
          (∀ v q, s.data v = some q → IsDist adj p v q) ∧
          (∀ v : Nat, ∀ cst : ℚ, DWalk adj p v cst →
            ∃ q, s.data v = some q ∧ IsDist adj p v q)) := by
  refine ⟨calcPivotsAux_length toState N draws comps 0, ?_, ?_, ?_⟩
  · intro c r hr
    have := calcPivotsAux_get toState N draws comps 0 c r hr
    rw [calculate_pivots, this]
    congr 1
    apply List.map_congr_left
    intro i _
    rw [show (0 : Nat) + c * N + i = c * N + i from by ring]
  · intro c r pv hr hpv p hp
    have hg := calcPivotsAux_get toState N draws comps 0 c r hr
    rw [calculate_pivots, hg] at hpv
    injection hpv with hpv
    subst hpv
    obtain ⟨i, _, hi2⟩ := List.mem_map.1 hp
    have hrm : r ∈ comps := by
      have := List.getElem?_eq_some_iff.1 hr
      obtain ⟨hlt, hget⟩ := this
      exact hget ▸ List.getElem_mem hlt
    exact ⟨genRange r (draws (0 + c * N + i)),
      genRange_mem r _ (hlen r hrm), hi2.symm⟩
  · intro c pv _ p _ adj hnn s hreach hterm
    exact dijkstra_terminal adj p hnn s hreach hterm

/-- **C8 (witness).** One component with id range `[5, 7)` and `N = 1`: the
theorem applies, yields one pivot list `[[6]]`, and on the edgeless graph a
drained search from pivot 6 has stored the distance 0 for state 6. -/
theorem differential_pivot_selection_witness :
    (∀ r ∈ [IdRange.mk 5 2], 0 < r.len) ∧
    (calculate_pivots id [IdRange.mk 5 2] 1 (fun _ => 3)).length = 1 ∧
    (∃ q, (([] : List (Nat × ℚ)).foldl (djRelaxEdge 0)
        { djInit 6 with
          opn := (djInit 6).opn.erase 6,
          data := fun v => if v = 6 then some 0 else (djInit 6).data v }).data 6
      = some q ∧ IsDist (fun _ => []) 6 6 q) := by
  have hlen : ∀ r ∈ [IdRange.mk 5 2], 0 < r.len := by
    intro r hr
    simp only [List.mem_singleton] at hr
    subst hr
    norm_num
  have happ := differential_pivot_selection id [IdRange.mk 5 2] 1
    (fun _ => 3) hlen
  have hnn : NonnegCosts (fun _ => ([] : List (Nat × ℚ))) :=
    fun _ p hp => absurd hp (List.not_mem_nil p)
  have hreach : DijkReach (fun _ => ([] : List (Nat × ℚ))) 6
      (([] : List (Nat × ℚ)).foldl (djRelaxEdge 0)
        { djInit 6 with
          opn := (djInit 6).opn.erase 6,
          data := fun v => if v = 6 then some 0 else (djInit 6).data v }) :=
    DijkReach.step (djInit 6) 6 0 DijkReach.init
      (by simp [djInit]) rfl
      (by
        intro m hm gm hgm
        rcases List.mem_singleton.1 (by simpa [djInit] using hm) with rfl
        have hsome : some (0 : ℚ) = some gm := by
          simpa [djInit] using hgm
        exact le_of_eq (Option.some.inj hsome))
  refine ⟨hlen, happ.1, ?_⟩
  exact (happ.2.2.2 0 [6] (by decide) 6 (List.mem_singleton.2 rfl)
    (fun _ => []) hnn _ hreach rfl).2 6 0 (DWalk.refl 6)

end Mkpath
